import Mathlib

/-!
Verification of the TENS v2 codec from packages/tens-wasm: value
canonicalization, the binary opcode encoder/decoder with its string
dictionary, and the TENS-Text record codec, modelled as executable Lean
functions over a JSON-like value type.  Machine integers are modelled as
Nat/Int with explicit reductions mod powers of two where wrap-around can
occur; floating-point numbers are carried as their IEEE-754 binary64 bit
patterns together with exact rational semantics.
-/

namespace Tens

/-! ### Bytes and little-endian integers -/

/-- Little-endian byte list (width w) of a natural number; only the low
8 * w bits are captured, matching to_le_bytes on a w-byte integer. -/
def leBytes : Nat → Nat → List Nat
  | 0, _ => []
  | w + 1, n => n % 256 :: leBytes w (n / 256)

/-- Value of a little-endian byte list, as read by from_le_bytes. -/
def leNat : List Nat → Nat
  | [] => 0
  | b :: bs => b % 256 + 256 * leNat bs

/-! ### LEB128 varints (source utils.rs) -/

/-- Unsigned LEB128 varint encoding, modelling encode_varint in utils.rs:
7 data bits per byte, continuation bit 0x80 on all but the last byte.
The Rust argument is a u32; every value the encoder passes is below 2^32. -/
def encodeVarint (v : Nat) : List Nat :=
  if h : v < 128 then [v] else (v % 128 + 128) :: encodeVarint (v / 128)
termination_by v
decreasing_by exact Nat.div_lt_self (by omega) (by omega)

/-- Worker for decode_varint in utils.rs under release-profile u32
semantics: the accumulator is a u32 and a shift amount of 32 or more is
reduced mod 32 (Rust release builds mask the shift operand).  Returns the
decoded value and the number of bytes consumed. -/
def decodeVarintAux : List Nat → Nat → Nat → Nat × Nat
  | [], val, _ => (val, 0)
  | b :: bs, val, shift =>
    let val := (val ||| ((b % 256 &&& 0x7F) <<< (shift % 32))) % 2 ^ 32
    if b % 256 &&& 0x80 == 0 then (val, 1)
    else
      let r := decodeVarintAux bs val (shift + 7)
      (r.1, r.2 + 1)

/-- Decode a LEB128 varint from a byte list: (value, bytes consumed),
modelling decode_varint in utils.rs (release profile, see above). -/
def decodeVarint (bs : List Nat) : Nat × Nat := decodeVarintAux bs 0 0

/-- Worker for decode_varint under checked-arithmetic (debug-profile)
semantics: evaluating the left shift with a shift amount of 32 or more on
a u32 is an arithmetic-overflow panic, modelled as none. -/
def decodeVarintChk : List Nat → Nat → Nat → Option (Nat × Nat)
  | [], val, _ => some (val, 0)
  | b :: bs, val, shift =>
    if 32 ≤ shift then none
    else
      let val := (val ||| ((b % 256 &&& 0x7F) <<< shift)) % 2 ^ 32
      if b % 256 &&& 0x80 == 0 then some (val, 1)
      else
        match decodeVarintChk bs val (shift + 7) with
        | none => none
        | some (v, n) => some (v, n + 1)

/-! ### IEEE-754 binary64 bit-pattern semantics

Floats are modelled by their 64-bit pattern (a Nat below 2^64), with exact
dyadic-rational semantics expressed in Nat/Int arithmetic. -/

/-- Exponent field of a binary64 bit pattern. -/
def f64Exp (b : Nat) : Nat := b / 2 ^ 52 % 2 ^ 11

/-- Mantissa field of a binary64 bit pattern. -/
def f64Mant (b : Nat) : Nat := b % 2 ^ 52

/-- Sign bit of a binary64 bit pattern. -/
def f64SignBit (b : Nat) : Nat := b / 2 ^ 63 % 2

/-- Whether the pattern is a NaN (f64::is_nan). -/
def f64IsNan (b : Nat) : Bool := f64Exp b == 2047 && f64Mant b != 0

/-- Whether the pattern is an infinity (f64::is_infinite). -/
def f64IsInf (b : Nat) : Bool := f64Exp b == 2047 && f64Mant b == 0

/-- Magnitude of a finite binary64 as an exact dyadic pair (m, e) meaning
m * 2^(e - 1075): subnormals (exponent field 0) contribute m = mantissa with
e = 1, normals m = 2^52 + mantissa with e = the exponent field. -/
def f64Dyadic (b : Nat) : Nat × Nat :=
  if f64Exp b == 0 then (f64Mant b, 1) else (2 ^ 52 + f64Mant b, f64Exp b)

/-- Whether f.fract() == 0.0 holds for the float with pattern b: true exactly
for finite patterns whose value is an integer (the fract of a NaN or an
infinity is NaN, which compares unequal to 0.0). -/
def f64FractZero (b : Nat) : Bool :=
  if f64Exp b == 2047 then false
  else
    let m := (f64Dyadic b).1
    let e := (f64Dyadic b).2
    if 1075 ≤ e then true else m % 2 ^ (1075 - e) == 0

/-- Whether f.abs() < c holds for the float with pattern b and the exact
integer threshold c (false for NaN and the infinities). -/
def f64AbsLt (b : Nat) (c : Nat) : Bool :=
  if f64Exp b == 2047 then false
  else
    let m := (f64Dyadic b).1
    let e := (f64Dyadic b).2
    if 1075 ≤ e then decide (m * 2 ^ (e - 1075) < c) else decide (m < c * 2 ^ (1075 - e))

/-- Truncation of a finite binary64 toward zero, as an integer; on the
integral patterns this is the exact value (models an in-range f-as-i32). -/
def f64TruncInt (b : Nat) : Int :=
  let m := (f64Dyadic b).1
  let e := (f64Dyadic b).2
  let mag : Nat := if 1075 ≤ e then m * 2 ^ (e - 1075) else m / 2 ^ (1075 - e)
  if f64SignBit b == 1 then -(mag : Int) else (mag : Int)

/-- Fuel-bounded floor of log2; exact for every n below 2^4096 and at least
4096 otherwise, which is all the rounding below needs (larger magnitudes
overflow to infinity regardless). -/
def natLog2Aux : Nat → Nat → Nat
  | 0, _ => 0
  | fuel + 1, n => if n < 2 then 0 else natLog2Aux fuel (n / 2) + 1

/-- Floor of log2 with a fixed fuel of 4096 (see natLog2Aux). -/
def natLog2 (n : Nat) : Nat := natLog2Aux 4096 n

/-- Round n / d (with d > 0) to the nearest natural, ties to even. -/
def roundDiv (n d : Nat) : Nat :=
  let q := n / d
  let r := n % d
  if d < 2 * r then q + 1
  else if 2 * r = d ∧ q % 2 = 1 then q + 1
  else q

/-- Whether 2^e ≤ n / d, in exact integer arithmetic. -/
def pow2Le (e : Int) (n d : Nat) : Bool :=
  if 0 ≤ e then decide (d * 2 ^ e.toNat ≤ n) else decide (d ≤ n * 2 ^ (-e).toNat)

/-- Floor of log2 (n / d) for positive n and d: the e with 2^e ≤ n/d < 2^(e+1),
obtained from the integer log2 estimate and a one-step fixup. -/
def dyLog2 (n d : Nat) : Int :=
  let e0 : Int := (natLog2 n : Int) - (natLog2 d : Int)
  if pow2Le (e0 + 1) n d then e0 + 1
  else if pow2Le e0 n d then e0
  else e0 - 1

/-- Round n / d * 2^s to the nearest natural, ties to even. -/
def roundScaled (n d : Nat) (s : Int) : Nat :=
  if 0 ≤ s then roundDiv (n * 2 ^ s.toNat) d else roundDiv n (d * 2 ^ (-s).toNat)

/-- Nearest binary64 (round to nearest, ties to even) to the rational
(-1)^neg * n / d, as a bit pattern: models the Rust int-to-float casts and
correctly-rounded decimal-to-float parsing. -/
def dyToF64Bits (neg : Bool) (n d : Nat) : Nat :=
  if n = 0 then (if neg then 2 ^ 63 else 0)
  else
    let s : Nat := if neg then 2 ^ 63 else 0
    let e : Int := dyLog2 n d
    if e < -1022 then
      let m := roundScaled n d 1074
      if m < 2 ^ 53 then s + m else s + 2047 * 2 ^ 52
    else
      let m := roundScaled n d (52 - e)
      if m < 2 ^ 53 then
        if 2047 ≤ e + 1023 then s + 2047 * 2 ^ 52
        else s + (e + 1023).toNat * 2 ^ 52 + (m - 2 ^ 52)
      else
        if 2047 ≤ e + 1024 then s + 2047 * 2 ^ 52
        else s + (e + 1024).toNat * 2 ^ 52

/-- Bit pattern of an integer cast to f64 (round to nearest, ties to even). -/
def intToF64Bits (i : Int) : Nat := dyToF64Bits (decide (i < 0)) i.natAbs 1

/-! ### Characters and strings (Rust str semantics) -/

/-- Code-point comparison of character lists: the order Rust uses on str
(bytewise UTF-8 order coincides with code-point lexicographic order). -/
def charsLe : List Char → List Char → Bool
  | [], _ => true
  | _ :: _, [] => false
  | a :: as, b :: bs =>
    if a.toNat < b.toNat then true
    else if b.toNat < a.toNat then false
    else charsLe as bs

/-- String comparison in Rust Ord-for-String order. -/
def strLeB (s t : String) : Bool := charsLe s.data t.data

/-- Unicode White_Space property, the set recognized by Rust
char::is_whitespace. -/
def isRustWs (c : Char) : Bool :=
  ([0x09, 0x0A, 0x0B, 0x0C, 0x0D, 0x20, 0x85, 0xA0, 0x1680,
    0x2000, 0x2001, 0x2002, 0x2003, 0x2004, 0x2005, 0x2006, 0x2007,
    0x2008, 0x2009, 0x200A, 0x2028, 0x2029, 0x202F, 0x205F, 0x3000] : List Nat).contains c.toNat

/-- Rust str::trim_end: drop trailing whitespace characters. -/
def trimEndStr (s : String) : String :=
  String.mk ((s.data.reverse.dropWhile isRustWs).reverse)

/-- Rust str::trim_start: drop leading whitespace characters. -/
def trimStartStr (s : String) : String :=
  String.mk (s.data.dropWhile isRustWs)

/-- Rust str::trim: drop whitespace at both ends. -/
def trimStr (s : String) : String := trimStartStr (trimEndStr s)

/-- Close a line at a \n terminator: the accumulated characters are in
reverse order and a single \r immediately before the terminator is
stripped, as Rust str::lines does for \r\n endings. -/
def finishLine (acc : List Char) : String :=
  String.mk ((match acc with
    | c :: r => if c = '\r' then r else c :: r
    | [] => []).reverse)

/-- Scanner for Rust str::lines: split at every \n (stripping a \r that
precedes it); a final segment is produced only if nonempty, so a trailing
newline yields no extra empty line. -/
def linesAux : List Char → List Char → List String
  | [], acc => if acc.isEmpty then [] else [String.mk acc.reverse]
  | c :: cs, acc =>
    if c = '\n' then finishLine acc :: linesAux cs []
    else linesAux cs (c :: acc)

/-- Rust str::lines on a string. -/
def rustLines (s : String) : List String := linesAux s.data []

/-- Modelled from the spec: the canonicalizer NFKC-normalizes strings via
the external unicode_normalization crate, which is not part of this
repository.  Modelled as the identity map, which agrees with real NFKC on
every code point below U+00A0 (in particular on all concrete inputs used in
the theorems below); NFKC itself is idempotent, so this does not affect the
shape of the idempotence results. -/
def nfkc (s : String) : String := s

/-- Rust slice join with separator "\n". -/
def joinNl : List String → String
  | [] => ""
  | [l] => l
  | l :: ls => l ++ "\n" ++ joinNl ls

/-- String canonicalization from encoder.rs canonicalize: NFKC-normalize,
split into Rust lines, strip trailing whitespace from each line, rejoin
with \n. -/
def canonStr (s : String) : String :=
  joinNl ((rustLines (nfkc s)).map trimEndStr)

/-! ### The JSON-like value model (serde_json::Value) -/

/-- JSON-like value (serde_json::Value): the int/float distinction is kept
at the type level; floats are carried as their binary64 bit pattern; an
object is an insertion-ordered association list with unique keys. -/
inductive JVal where
  | null
  | bool (b : Bool)
  | int (i : Int)
  | float (bits : Nat)
  | str (s : String)
  | arr (elems : List JVal)
  | obj (fields : List (String × JVal))

/-! ### UTF-8 (str::as_bytes and String::from_utf8) -/

/-- UTF-8 bytes of one unicode scalar value. -/
def utf8Char (c : Char) : List Nat :=
  let n := c.toNat
  if n < 0x80 then [n]
  else if n < 0x800 then [0xC0 + n / 64, 0x80 + n % 64]
  else if n < 0x10000 then [0xE0 + n / 4096, 0x80 + n / 64 % 64, 0x80 + n % 64]
  else [0xF0 + n / 262144, 0x80 + n / 4096 % 64, 0x80 + n / 64 % 64, 0x80 + n % 64]

/-- UTF-8 bytes of a string (Rust str::as_bytes). -/
def utf8Bytes (s : String) : List Nat := s.data.flatMap utf8Char

/-- Validating UTF-8 decoder, fuelled: each step consumes at least one
byte, so fuel equal to the input length always suffices (the fuel-0 arm
on a nonempty list is never reached from utf8Decode below). -/
def utf8DecodeAux : Nat → List Nat → Option (List Char)
  | _, [] => some []
  | 0, _ :: _ => none
  | fuel + 1, b :: bs =>
    if b < 0x80 then (utf8DecodeAux fuel bs).map (fun cs => Char.ofNat b :: cs)
    else if b < 0xC2 then none
    else if b < 0xE0 then
      match bs with
      | b1 :: bs1 =>
        if 0x80 ≤ b1 ∧ b1 < 0xC0 then
          (utf8DecodeAux fuel bs1).map (fun cs => Char.ofNat ((b - 0xC0) * 64 + (b1 - 0x80)) :: cs)
        else none
      | [] => none
    else if b < 0xF0 then
      match bs with
      | b1 :: b2 :: bs2 =>
        let n := (b - 0xE0) * 4096 + (b1 - 0x80) * 64 + (b2 - 0x80)
        if (0x80 ≤ b1 ∧ b1 < 0xC0) ∧ (0x80 ≤ b2 ∧ b2 < 0xC0) ∧
            0x800 ≤ n ∧ (n < 0xD800 ∨ 0xE000 ≤ n) then
          (utf8DecodeAux fuel bs2).map (fun cs => Char.ofNat n :: cs)
        else none
      | _ => none
    else if b < 0xF5 then
      match bs with
      | b1 :: b2 :: b3 :: bs3 =>
        let n := (b - 0xF0) * 262144 + (b1 - 0x80) * 4096 + (b2 - 0x80) * 64 + (b3 - 0x80)
        if (0x80 ≤ b1 ∧ b1 < 0xC0) ∧ (0x80 ≤ b2 ∧ b2 < 0xC0) ∧ (0x80 ≤ b3 ∧ b3 < 0xC0) ∧
            0x10000 ≤ n ∧ n < 0x110000 then
          (utf8DecodeAux fuel bs3).map (fun cs => Char.ofNat n :: cs)
        else none
      | _ => none
    else none

/-- Validating UTF-8 decoder (String::from_utf8): rejects overlong forms,
surrogates, code points past U+10FFFF, stray continuation bytes, and
truncated sequences. -/
def utf8Decode (bs : List Nat) : Option (List Char) := utf8DecodeAux bs.length bs

/-! ### Object association lists and sorting -/

/-- Association-list lookup, modelling Map::get on an object. -/
def assocLookup : List (String × JVal) → String → Option JVal
  | [], _ => none
  | (k', v) :: rest, k => if k = k' then some v else assocLookup rest k

/-- Map::insert on the insertion-ordered object representation: replace the
value in place when the key is present, else append at the end. -/
def mapInsert (k : String) (v : JVal) : List (String × JVal) → List (String × JVal)
  | [] => [(k, v)]
  | (k', w) :: rest => if k = k' then (k, v) :: rest else (k', w) :: mapInsert k v rest

/-- Fold of mapInsert over a pair list, modelling a loop that inserts each
pair into a map in order. -/
def foldInsert : List (String × JVal) → List (String × JVal) → List (String × JVal)
  | [], m => m
  | (k, v) :: rest, m => foldInsert rest (mapInsert k v m)

/-- Stable sort of object fields by key (Vec::sort_by with a key
comparison; insertion sort is stable, like Rust sort_by). -/
def sortPairs (ps : List (String × JVal)) : List (String × JVal) :=
  ps.insertionSort (fun a b => strLeB a.1 b.1 = true)

/-- Stable sort of a key vector (Vec::sort on Strings). -/
def sortStrings (ks : List String) : List String :=
  ks.insertionSort (fun a b => strLeB a b = true)

/-- Keys of an object field list, in presentation order. -/
def keysOf (fs : List (String × JVal)) : List String := fs.map Prod.fst

/-! ### Canonicalization (encoder.rs canonicalize) -/

mutual
/-- Canonicalization from encoder.rs: NaN and infinities become null,
negative zero becomes integer 0, other numbers pass through; strings get
the canonStr treatment; arrays recurse in order; objects have their pairs
stable-sorted by key and re-inserted into a fresh map (the sort compares
keys only, so canonicalizing the values before sorting, as done here, is
the same as the source's sort-then-canonicalize order). -/
def canonicalize : JVal → JVal
  | .null => .null
  | .bool b => .bool b
  | .int i => .int i
  | .float b =>
    if f64IsNan b || f64IsInf b then .null
    else if b = 2 ^ 63 then .int 0
    else .float b
  | .str s => .str (canonStr s)
  | .arr es => .arr (canonList es)
  | .obj fs => .obj (foldInsert (sortPairs (canonFields fs)) [])
/-- Canonicalization mapped over array elements. -/
def canonList : List JVal → List JVal
  | [] => []
  | v :: vs => canonicalize v :: canonList vs
/-- Canonicalization mapped over the values of object fields. -/
def canonFields : List (String × JVal) → List (String × JVal)
  | [] => []
  | (k, v) :: fs => (k, canonicalize v) :: canonFields fs
end

/-! ### String table (encoder.rs StringTable) -/

/-- StringTable::add: return the existing id when the string is present,
else append it and return the fresh id (the previous length).  The table
is its entries list; the Rust HashMap is just an index over it. -/
def stAdd (st : List String) (s : String) : Nat × List String :=
  if s ∈ st then (st.indexOf s, st) else (st.length, st ++ [s])

/-- Add a list of keys to the table in order (the key-registration loop of
the scan and emit passes). -/
def addKeys (st : List String) : List String → List String
  | [] => st
  | k :: ks => addKeys (stAdd st k).2 ks

/-- Size bound used for the termination of the scan and emit recursions,
which look object values up by key rather than destructuring the list. -/
theorem assocLookup_sizeOf {fs : List (String × JVal)} {k : String} {v : JVal}
    (h : assocLookup fs k = some v) : sizeOf v < sizeOf fs := by
  induction fs with
  | nil => simp [assocLookup] at h
  | cons kv rest ih =>
    obtain ⟨k1, w⟩ := kv
    by_cases hk : k = k1
    · simp only [assocLookup, if_pos hk, Option.some.injEq] at h
      subst h
      simp
      omega
    · simp only [assocLookup, if_neg hk] at h
      have := ih h
      simp
      omega

/-! ### Binary encoder (encoder.rs TensEncoder) -/

mutual
/-- TensEncoder::scan_strings: register every string of the value in DFS
order; for an object, register all sorted keys first, then scan each key's
value in sorted order. -/
def scanStrings (st : List String) : JVal → List String
  | .str s => (stAdd st s).2
  | .arr es => scanList st es
  | .obj fs => scanVals (addKeys st (sortStrings (keysOf fs))) fs (sortStrings (keysOf fs))
  | _ => st
termination_by v => (sizeOf v, 0)
decreasing_by
  · apply Prod.Lex.left; simp
  · apply Prod.Lex.left; simp
/-- Scan pass over array elements. -/
def scanList (st : List String) : List JVal → List String
  | [] => st
  | v :: vs => scanList (scanStrings st v) vs
termination_by es => (sizeOf es, 0)
decreasing_by
  · apply Prod.Lex.left; simp; omega
  · apply Prod.Lex.left; simp
/-- Scan pass over an object's values, visited through key lookup in
sorted-key order as the source does. -/
def scanVals (st : List String) (fs : List (String × JVal)) : List String → List String
  | [] => st
  | k :: ks =>
    match h : assocLookup fs k with
    | some v => scanVals (scanStrings st v) fs ks
    | none => scanVals st fs ks
termination_by ks => (sizeOf fs, ks.length)
decreasing_by
  · apply Prod.Lex.left; exact assocLookup_sizeOf h
  · apply Prod.Lex.right; simp
  · apply Prod.Lex.right; simp
end

mutual
/-- TensEncoder::encode_value: emit one opcode node.  Numbers follow the
source policy: an integer in [-128, 127] as INT8, else within the signed
32-bit range as INT32, else as FLOAT64 of its f64 cast; a float with zero
fract and absolute value strictly below i32::MAX is re-classified through
its i32 cast, every other float is FLOAT64 of its bit pattern.  Strings go
through StringTable::add; objects emit sorted keys with values found by
lookup.  Returns the table after the node (add can extend it) and the
emitted bytes. -/
def encodeValue (st : List String) : JVal → List String × List Nat
  | .null => (st, [0x00])
  | .bool b => (st, [if b then 0x01 else 0x02])
  | .int i =>
    if -128 ≤ i ∧ i ≤ 127 then (st, [0x03, (i % 256).toNat])
    else if -(2 ^ 31) ≤ i ∧ i ≤ 2 ^ 31 - 1 then (st, 0x05 :: leBytes 4 (i % 2 ^ 32).toNat)
    else (st, 0x06 :: leBytes 8 (intToF64Bits i))
  | .float b =>
    if f64FractZero b && f64AbsLt b 2147483647 then
      let i := f64TruncInt b
      if -128 ≤ i ∧ i ≤ 127 then (st, [0x03, (i % 256).toNat])
      else (st, 0x05 :: leBytes 4 (i % 2 ^ 32).toNat)
    else (st, 0x06 :: leBytes 8 b)
  | .str s => ((stAdd st s).2, 0x07 :: encodeVarint (stAdd st s).1)
  | .arr es =>
    let r := encodeList st es
    (r.1, 0x08 :: (encodeVarint es.length ++ r.2))
  | .obj fs =>
    let ks := sortStrings (keysOf fs)
    let r := encodeFields st fs ks
    (r.1, 0x09 :: (encodeVarint ks.length ++ r.2))
termination_by v => (sizeOf v, 0)
decreasing_by
  · apply Prod.Lex.left; simp
  · apply Prod.Lex.left; simp
/-- Emit pass over array elements, threading the table. -/
def encodeList (st : List String) : List JVal → List String × List Nat
  | [] => (st, [])
  | v :: vs =>
    let rv := encodeValue st v
    let rs := encodeList rv.1 vs
    (rs.1, rv.2 ++ rs.2)
termination_by es => (sizeOf es, 0)
decreasing_by
  · apply Prod.Lex.left; simp; omega
  · apply Prod.Lex.left; simp
/-- Emit pass over an object's fields in sorted-key order: each key id from
StringTable::add, then the value found by lookup (none is impossible for a
real map and emits nothing, as the source's if-let does). -/
def encodeFields (st : List String) (fs : List (String × JVal)) : List String → List String × List Nat
  | [] => (st, [])
  | k :: ks =>
    let ra := stAdd st k
    match _h : assocLookup fs k with
    | some v =>
      let rv := encodeValue ra.2 v
      let rs := encodeFields rv.1 fs ks
      (rs.1, (encodeVarint ra.1 ++ rv.2) ++ rs.2)
    | none =>
      let rs := encodeFields ra.2 fs ks
      (rs.1, encodeVarint ra.1 ++ rs.2)
termination_by ks => (sizeOf fs, ks.length)
decreasing_by
  · apply Prod.Lex.left; exact assocLookup_sizeOf _h
  · apply Prod.Lex.right; simp
  · apply Prod.Lex.right; simp
end

/-- Fixed 5-byte header: the magic "TENS" and the version byte 0x02. -/
def tensHeader : List Nat := [0x54, 0x45, 0x4E, 0x53, 0x02]

/-- Dictionary section bytes: for each entry, a varint byte length followed
by the UTF-8 bytes, in table order. -/
def dictBytes (st : List String) : List Nat :=
  st.flatMap (fun s => encodeVarint (utf8Bytes s).length ++ utf8Bytes s)

/-- TensEncoder::encode on an encoder whose string table currently holds
st0: canonicalize, reset the table and scan, then emit header, varint
table size, dictionary, and the value tree.  Returns the table as left by
the emit pass and the output bytes; the incoming table st0 is discarded by
the reset, which is why it does not occur on the right-hand side. -/
def encodeWith (st0 : List String) (v : JVal) : List String × List Nat :=
  let c := canonicalize v
  let st := scanStrings [] c
  let r := encodeValue st c
  (r.1, tensHeader ++ encodeVarint st.length ++ dictBytes st ++ r.2)

/-- TensEncoder::encode from a fresh encoder. -/
def encodeTop (v : JVal) : List Nat := (encodeWith [] v).2

/-! ### Binary decoder (encoder.rs TensDecoder) -/

/-- Value of a byte read back as i8 then widened to i64 (the INT8 payload). -/
def i8Val (x : Nat) : Int :=
  if x % 256 < 128 then (x % 256 : Int) else (x % 256 : Int) - 256

/-- Value of four little-endian bytes read back as i32 then widened (the
INT32 payload). -/
def i32Val (bs : List Nat) : Int :=
  let n := leNat bs
  if n < 2 ^ 31 then (n : Int) else (n : Int) - 2 ^ 32

/-- Construction of a serde_json number from an f64 (the json! macro):
non-finite floats become null, every other pattern stays a float. -/
def f64ToJson (b : Nat) : JVal :=
  if f64IsNan b || f64IsInf b then .null else .float b

mutual
/-- TensDecoder::decode_value: parse one opcode node from the byte list,
returning the value and the number of bytes consumed, or a typed error.
Unknown opcodes (including the reserved 0x04) are rejected. -/
def decodeValue (dict : List String) : List Nat → Except String (JVal × Nat)
  | [] => .error "Unexpected end of input"
  | b :: bs =>
    match b with
    | 0x00 => .ok (.null, 1)
    | 0x01 => .ok (.bool true, 1)
    | 0x02 => .ok (.bool false, 1)
    | 0x03 =>
      match bs with
      | [] => .error "INT8: missing byte"
      | x :: _ => .ok (.int (i8Val x), 2)
    | 0x05 =>
      if 4 ≤ bs.length then .ok (.int (i32Val (bs.take 4)), 5)
      else .error "INT32: not enough bytes"
    | 0x06 =>
      if 8 ≤ bs.length then .ok (f64ToJson (leNat (bs.take 8)), 9)
      else .error "FLOAT64: not enough bytes"
    | 0x07 =>
      let r := decodeVarint bs
      if h : r.1 < dict.length then .ok (.str (dict.get ⟨r.1, h⟩), 1 + r.2)
      else .error "String ref out of bounds"
    | 0x08 =>
      let r := decodeVarint bs
      match decodeElems dict r.1 (bs.drop r.2) with
      | .error e => .error e
      | .ok (vs, n) => .ok (.arr vs, 1 + r.2 + n)
    | 0x09 =>
      let r := decodeVarint bs
      match decodeFieldsD dict r.1 (bs.drop r.2) [] with
      | .error e => .error e
      | .ok (fs, n) => .ok (.obj fs, 1 + r.2 + n)
    | _ => .error "Unknown opcode"
termination_by bs => (bs.length, 0)
decreasing_by
  · apply Prod.Lex.left; have := List.length_drop r.2 bs; simp; omega
  · apply Prod.Lex.left; have := List.length_drop r.2 bs; simp; omega
/-- Loop reading count array elements, each at the position after the
previous one; returns the elements and total bytes consumed. -/
def decodeElems (dict : List String) : Nat → List Nat → Except String (List JVal × Nat)
  | 0, _ => .ok ([], 0)
  | count + 1, bs =>
    match decodeValue dict bs with
    | .error e => .error e
    | .ok (v, n) =>
      match decodeElems dict count (bs.drop n) with
      | .error e => .error e
      | .ok (vs, m) => .ok (v :: vs, n + m)
termination_by count bs => (bs.length, count + 1)
decreasing_by
  · apply Prod.Lex.right; omega
  · have hle : (bs.drop n).length ≤ bs.length := by
      have := List.length_drop n bs; omega
    rcases Nat.lt_or_ge (bs.drop n).length bs.length with hlt | hge
    · exact Prod.Lex.left _ _ hlt
    · have heq : (bs.drop n).length = bs.length := by omega
      rw [heq]; exact Prod.Lex.right _ (by omega)
/-- Loop reading count object fields into the map m via last-write-wins
insertion, validating each key id against the dictionary. -/
def decodeFieldsD (dict : List String) : Nat → List Nat → List (String × JVal) →
    Except String (List (String × JVal) × Nat)
  | 0, _, m => .ok (m, 0)
  | count + 1, bs, m =>
    let rk := decodeVarint bs
    if h : rk.1 < dict.length then
      match decodeValue dict (bs.drop rk.2) with
      | .error e => .error e
      | .ok (v, n) =>
        match decodeFieldsD dict count (bs.drop (rk.2 + n)) (mapInsert (dict.get ⟨rk.1, h⟩) v m) with
        | .error e => .error e
        | .ok (fs, m2) => .ok (fs, rk.2 + n + m2)
    else .error "Key ref out of bounds"
termination_by count bs m => (bs.length, count + 1)
decreasing_by
  · have hle : (bs.drop rk.2).length ≤ bs.length := by
      have := List.length_drop rk.2 bs; omega
    rcases Nat.lt_or_ge (bs.drop rk.2).length bs.length with hlt | hge
    · exact Prod.Lex.left _ _ hlt
    · have heq : (bs.drop rk.2).length = bs.length := by omega
      rw [heq]; exact Prod.Lex.right _ (by omega)
  · have hle : (bs.drop (rk.2 + n)).length ≤ bs.length := by
      have := List.length_drop (rk.2 + n) bs; omega
    rcases Nat.lt_or_ge (bs.drop (rk.2 + n)).length bs.length with hlt | hge
    · exact Prod.Lex.left _ _ hlt
    · have heq : (bs.drop (rk.2 + n)).length = bs.length := by omega
      rw [heq]; exact Prod.Lex.right _ (by omega)
end

/-- Dictionary-reading loop of TensDecoder::decode, on the bytes after the
count varint: each entry is a varint length (failing when the declared
length runs past the input) followed by that many UTF-8 bytes (failing
when invalid).  Returns the entries and bytes consumed.  Positions here
are Nats, matching a 64-bit usize, where the position sum cannot wrap. -/
def readDict : Nat → List Nat → Except String (List String × Nat)
  | 0, _ => .ok ([], 0)
  | count + 1, bs =>
    let r := decodeVarint bs
    let rest := bs.drop r.2
    if r.1 ≤ rest.length then
      match utf8Decode (rest.take r.1) with
      | none => .error "Invalid UTF-8 in dictionary"
      | some cs =>
        match readDict count (rest.drop r.1) with
        | .error e => .error e
        | .ok (ss, m) => .ok (String.mk cs :: ss, r.2 + r.1 + m)
    else .error "Dictionary string extends past end of input"

/-- TensDecoder::decode: header and version checks, dictionary, then the
value tree.  Total, with every failure a typed error (64-bit positions). -/
def decodeTop (bytes : List Nat) : Except String JVal :=
  if bytes.length < 5 then .error "Input too short for TENS header"
  else if bytes.take 4 ≠ [0x54, 0x45, 0x4E, 0x53] then .error "Invalid TENS header magic"
  else if bytes.get? 4 ≠ some 0x02 then .error "Unsupported TENS version"
  else
    let rest := bytes.drop 5
    let rc := decodeVarint rest
    match readDict rc.1 (rest.drop rc.2) with
    | .error e => .error e
    | .ok (dict, n) =>
      match decodeValue dict ((rest.drop rc.2).drop n) with
      | .error e => .error e
      | .ok (v, _) => .ok v

/-! ### The dictionary loop on a 32-bit target (wasm32)

On wasm32, usize is 32 bits wide: the end-of-entry position pos + len is
computed mod 2^32 (release profile wraps), and the slice bytes[pos..end]
panics when end < pos.  The loop below models exactly that; none is the
panic outcome. -/

/-- Dictionary loop with 32-bit position arithmetic over the whole input:
pos is the current absolute position; a wrapped end position that stays
within bounds but sits before pos reaches the panicking slice. -/
def readDict32 (bytes : List Nat) : Nat → Nat → List String →
    Option (Except String (List String × Nat))
  | 0, pos, acc => some (.ok (acc, pos))
  | count + 1, pos, acc =>
    let r := decodeVarint (bytes.drop pos)
    let pos2 := (pos + r.2) % 2 ^ 32
    let e := (pos2 + r.1) % 2 ^ 32
    if e > bytes.length then some (.error "Dictionary string extends past end of input")
    else if e < pos2 then none
    else
      match utf8Decode ((bytes.drop pos2).take (e - pos2)) with
      | none => some (.error "Invalid UTF-8 in dictionary")
      | some cs => readDict32 bytes count e (acc ++ [String.mk cs])

/-- TensDecoder::decode as compiled for wasm32 (32-bit usize, release
profile): identical to decodeTop except for the dictionary loop position
arithmetic; none is a panic. -/
def decodeTop32 (bytes : List Nat) : Option (Except String JVal) :=
  if bytes.length < 5 then some (.error "Input too short for TENS header")
  else if bytes.take 4 ≠ [0x54, 0x45, 0x4E, 0x53] then some (.error "Invalid TENS header magic")
  else if bytes.get? 4 ≠ some 0x02 then some (.error "Unsupported TENS version")
  else
    let rc := decodeVarint (bytes.drop 5)
    match readDict32 bytes rc.1 (5 + rc.2) [] with
    | none => none
    | some (.error e) => some (.error e)
    | some (.ok (dict, pos)) =>
      match decodeValue dict (bytes.drop pos) with
      | .error e => some (.error e)
      | .ok (v, _) => some (.ok v)

/-! ### Numeric re-classification (the section 4.3 policy as the roundtrip
realizes it) -/

mutual
/-- Numeric re-classification applied by one encode/decode roundtrip to a
canonical value, per the section 4.3 policy: an integer stays an integer
when it fits the signed 32-bit range and otherwise comes back as its f64
cast; a float with zero fract and magnitude strictly below i32::MAX comes
back as the integer it denotes, every other float comes back through the
json! construction (non-finite to null). -/
def numReclass : JVal → JVal
  | .null => .null
  | .bool b => .bool b
  | .int i =>
    if -128 ≤ i ∧ i ≤ 127 then .int i
    else if -(2 ^ 31) ≤ i ∧ i ≤ 2 ^ 31 - 1 then .int i
    else f64ToJson (intToF64Bits i)
  | .float b =>
    if f64FractZero b && f64AbsLt b 2147483647 then .int (f64TruncInt b)
    else f64ToJson b
  | .str s => .str s
  | .arr es => .arr (numReclassList es)
  | .obj fs => .obj (numReclassFields fs)
/-- Re-classification mapped over array elements. -/
def numReclassList : List JVal → List JVal
  | [] => []
  | v :: vs => numReclass v :: numReclassList vs
/-- Re-classification mapped over object field values. -/
def numReclassFields : List (String × JVal) → List (String × JVal)
  | [] => []
  | (k, v) :: fs => (k, numReclass v) :: numReclassFields fs
end

/-! ### String sequence of the scan traversal -/

mutual
/-- Strings of a value in the scan traversal order: a string itself; array
elements left to right; for objects all sorted keys first, then the values
in sorted-key order. -/
def dfsStrings : JVal → List String
  | .str s => [s]
  | .arr es => dfsList es
  | .obj fs => sortStrings (keysOf fs) ++ dfsVals fs (sortStrings (keysOf fs))
  | _ => []
termination_by v => (sizeOf v, 0)
decreasing_by
  · apply Prod.Lex.left; simp
  · apply Prod.Lex.left; simp
/-- Scan-order strings of array elements. -/
def dfsList : List JVal → List String
  | [] => []
  | v :: vs => dfsStrings v ++ dfsList vs
termination_by es => (sizeOf es, 0)
decreasing_by
  · apply Prod.Lex.left; simp; omega
  · apply Prod.Lex.left; simp
/-- Scan-order strings of the looked-up values of an object. -/
def dfsVals (fs : List (String × JVal)) : List String → List String
  | [] => []
  | k :: ks =>
    (match _h : assocLookup fs k with
      | some v => dfsStrings v
      | none => []) ++ dfsVals fs ks
termination_by ks => (sizeOf fs, ks.length)
decreasing_by
  · apply Prod.Lex.left; exact assocLookup_sizeOf _h
  · apply Prod.Lex.right; simp
end

/-! ### Size and well-formedness measures -/

mutual
/-- Abstract size of a value: number of nodes plus string/key byte lengths.
Bounding it below 2^32 keeps every count the encoder writes in u32 range. -/
def jsize : JVal → Nat
  | .str s => 1 + (utf8Bytes s).length
  | .arr es => 1 + jsizeList es
  | .obj fs => 1 + jsizeFields fs
  | _ => 1
/-- Summed size of array elements. -/
def jsizeList : List JVal → Nat
  | [] => 0
  | v :: vs => jsize v + jsizeList vs
/-- Summed size of object fields, keys included. -/
def jsizeFields : List (String × JVal) → Nat
  | [] => 0
  | (k, v) :: fs => 1 + (utf8Bytes k).length + jsize v + jsizeFields fs
end

mutual
/-- Well-formedness of float payloads: every float bit pattern is a real
64-bit pattern (below 2^64), as any value coming from serde_json is. -/
def bitsOk : JVal → Bool
  | .float b => decide (b < 2 ^ 64)
  | .arr es => bitsOkList es
  | .obj fs => bitsOkFields fs
  | _ => true
/-- bitsOk over array elements. -/
def bitsOkList : List JVal → Bool
  | [] => true
  | v :: vs => bitsOk v && bitsOkList vs
/-- bitsOk over object field values. -/
def bitsOkFields : List (String × JVal) → Bool
  | [] => true
  | (_, v) :: fs => bitsOk v && bitsOkFields fs
end

/-- Whether the canonical line list of a string does not end with an empty
line: the condition under which rejoining with newlines and re-splitting
reproduces the lines (a canonical string then canonicalizes to itself). -/
def goodStrB (s : String) : Bool :=
  ((rustLines (nfkc s)).map trimEndStr).getLastD "x" != ""

mutual
/-- All string values of a value satisfy goodStrB (object keys are not
constrained: canonicalization never rewrites keys). -/
def strsOk : JVal → Bool
  | .str s => goodStrB s
  | .arr es => strsOkList es
  | .obj fs => strsOkFields fs
  | _ => true
/-- strsOk over array elements. -/
def strsOkList : List JVal → Bool
  | [] => true
  | v :: vs => strsOk v && strsOkList vs
/-- strsOk over object field values. -/
def strsOkFields : List (String × JVal) → Bool
  | [] => true
  | (_, v) :: fs => strsOk v && strsOkFields fs
end

/-! ### Claim-side string pipeline (section 4.1 wording) -/

/-- Split a character list at every newline, keeping every segment —
including the empty segment after a final newline.  This is the splitting
that the specification text describes. -/
def splitNl : List Char → List (List Char)
  | [] => [[]]
  | c :: cs =>
    if c = '\n' then [] :: splitNl cs
    else
      match splitNl cs with
      | h :: t => (c :: h) :: t
      | [] => [[c]]

/-- The string canonicalization exactly as the claim words it: NFKC, split
on newline (keeping the final segment), strip trailing whitespace from
every segment, rejoin with newlines. -/
def canonStrClaim (s : String) : String :=
  joinNl ((splitNl (nfkc s).data).map (fun cs => trimEndStr (String.mk cs)))

/-- Drop the final segment when it is empty (the segment after a trailing
newline); Rust str::lines produces no line for it. -/
def dropLastEmpty (ps : List (List Char)) : List (List Char) :=
  if ps.getLast? = some [] then ps.dropLast else ps

/-- The amended claim-side string canonicalization: as canonStrClaim, but
the empty segment after a final newline produces no line, so a trailing
newline is dropped (and with it, one trailing empty line per application). -/
def canonStrAmended (s : String) : String :=
  joinNl ((dropLastEmpty (splitNl (nfkc s).data)).map (fun cs => trimEndStr (String.mk cs)))

/-- Strip one trailing carriage return from a segment (the \r of an \r\n
line ending). -/
def dropTrailCr (cs : List Char) : List Char :=
  if cs.getLast? = some '\r' then cs.dropLast else cs

/-- Rust str::lines reconstructed from newline segments: every segment but
the last loses one trailing \r; the last is kept verbatim, or produces no
line when empty. -/
def linesFromSegs : List (List Char) → List String
  | [] => []
  | [cs] => if cs.isEmpty then [] else [String.mk cs]
  | cs :: rest => String.mk (dropTrailCr cs) :: linesFromSegs rest

/-! ### SHA-256 (the hashing boundary; hashed bytes are never proved about,
the implementation is only here so the hash functions are executable) -/

/-- Right rotation on 32-bit words. -/
def rotr32 (n x : Nat) : Nat := ((x >>> n) ||| (x <<< (32 - n))) % 2 ^ 32

/-- The 64 SHA-256 round constants. -/
def sha256K : List Nat :=
  [1116352408, 1899447441, 3049323471, 3921009573,
   961987163, 1508970993, 2453635748, 2870763221,
   3624381080, 310598401, 607225278, 1426881987,
   1925078388, 2162078206, 2614888103, 3248222580,
   3835390401, 4022224774, 264347078, 604807628,
   770255983, 1249150122, 1555081692, 1996064986,
   2554220882, 2821834349, 2952996808, 3210313671,
   3336571891, 3584528711, 113926993, 338241895,
   666307205, 773529912, 1294757372, 1396182291,
   1695183700, 1986661051, 2177026350, 2456956037,
   2730485921, 2820302411, 3259730800, 3345764771,
   3516065817, 3600352804, 4094571909, 275423344,
   430227734, 506948616, 659060556, 883997877,
   958139571, 1322822218, 1537002063, 1747873779,
   1955562222, 2024104815, 2227730452, 2361852424,
   2428436474, 2756734187, 3204031479, 3329325298]

/-- Initial SHA-256 chaining state. -/
def sha256H0 : List Nat :=
  [1779033703, 3144134277, 1013904242, 2773480762,
   1359893119, 2600822924, 528734635, 1541459225]

/-- SHA-256 message padding of a byte list. -/
def sha256Pad (msg : List Nat) : List Nat :=
  let bitLen := msg.length * 8
  let padZeros := (55 + 64 - msg.length % 64) % 64
  msg ++ [0x80] ++ List.replicate padZeros 0 ++
    [bitLen / 2 ^ 56 % 256, bitLen / 2 ^ 48 % 256, bitLen / 2 ^ 40 % 256, bitLen / 2 ^ 32 % 256,
     bitLen / 2 ^ 24 % 256, bitLen / 2 ^ 16 % 256, bitLen / 2 ^ 8 % 256, bitLen % 256]

/-- Big-endian 32-bit words of a byte list. -/
def beWords : List Nat → List Nat
  | b0 :: b1 :: b2 :: b3 :: rest =>
    (b0 % 256 * 2 ^ 24 + b1 % 256 * 2 ^ 16 + b2 % 256 * 2 ^ 8 + b3 % 256) :: beWords rest
  | _ => []

/-- Extend 16 message words to the 64-entry schedule. -/
def sha256Extend (w : List Nat) : Nat → List Nat
  | 0 => w
  | n + 1 =>
    let w2 := sha256Extend w n
    let i := w2.length
    let g j := w2.getD j 0
    let x := g (i - 15)
    let y := g (i - 2)
    let s0 := (rotr32 7 x ^^^ rotr32 18 x ^^^ (x >>> 3)) % 2 ^ 32
    let s1 := (rotr32 17 y ^^^ rotr32 19 y ^^^ (y >>> 10)) % 2 ^ 32
    w2 ++ [(g (i - 16) + s0 + g (i - 7) + s1) % 2 ^ 32]

/-- One SHA-256 compression round. -/
def sha256Round (st : List Nat) (kw : Nat × Nat) : List Nat :=
  let g j := st.getD j 0
  let a := g 0
  let b := g 1
  let c := g 2
  let d := g 3
  let e := g 4
  let f := g 5
  let gg := g 6
  let h := g 7
  let s1 := (rotr32 6 e ^^^ rotr32 11 e ^^^ rotr32 25 e) % 2 ^ 32
  let ch := ((e &&& f) ^^^ ((2 ^ 32 - 1 - e) &&& gg)) % 2 ^ 32
  let t1 := (h + s1 + ch + kw.1 + kw.2) % 2 ^ 32
  let s0 := (rotr32 2 a ^^^ rotr32 13 a ^^^ rotr32 22 a) % 2 ^ 32
  let mj := ((a &&& b) ^^^ (a &&& c) ^^^ (b &&& c)) % 2 ^ 32
  let t2 := (s0 + mj) % 2 ^ 32
  [(t1 + t2) % 2 ^ 32, a, b, c, (d + t1) % 2 ^ 32, e, f, gg]

/-- Compress one 64-byte block into the chaining state. -/
def sha256Block (h : List Nat) (block : List Nat) : List Nat :=
  let w := sha256Extend (beWords block) 48
  let st := (sha256K.zip w).foldl sha256Round h
  (h.zip st).map (fun p => (p.1 + p.2) % 2 ^ 32)

/-- Split a list into 64-byte blocks. -/
def chunks64 : List Nat → List (List Nat)
  | [] => []
  | b :: rest => (b :: rest.take 63) :: chunks64 (rest.drop 63)
termination_by l => l.length
decreasing_by
  simp only [List.length_drop, List.length_cons]
  omega

/-- SHA-256 digest bytes of a byte list. -/
def sha256 (msg : List Nat) : List Nat :=
  let hh := (chunks64 (sha256Pad msg)).foldl sha256Block sha256H0
  hh.flatMap (fun w => [w / 2 ^ 24 % 256, w / 2 ^ 16 % 256, w / 2 ^ 8 % 256, w % 256])

/-- Lowercase hex digit. -/
def hexDigit (n : Nat) : Char :=
  if n < 10 then Char.ofNat (48 + n) else Char.ofNat (97 + (n - 10))

/-- Lowercase hex rendering of bytes (hex_encode in encoder.rs). -/
def hexOfBytes (bs : List Nat) : String :=
  String.mk (bs.flatMap (fun b => [hexDigit (b % 256 / 16), hexDigit (b % 16)]))

/-- hash_tens_binary: SHA-256 of the bytes, rendered as lowercase hex. -/
def hashTensBinary (bs : List Nat) : String := hexOfBytes (sha256 bs)

/-- The host-facing hash boundary: encode, then hash the binary bytes. -/
def hashValue (v : JVal) : String := hashTensBinary (encodeTop v)

/-! ### TENS-Text codec (encoder.rs encode_tens_text / decode_tens_text) -/

/-- Rust str::starts_with for string patterns. -/
def strStarts (s p : String) : Bool := s.data.take p.data.length == p.data

/-- infer_type: the TENS-Text type label of a value. -/
def inferType : JVal → String
  | .null => "null"
  | .bool _ => "bool"
  | .int _ => "num"
  | .float _ => "num"
  | .str _ => "str"
  | .arr _ => "str[]"
  | .obj _ => "str"

/-- Value of a digit list in base 10. -/
def digitsVal (cs : List Char) : Nat :=
  cs.foldl (fun a c => a * 10 + (c.toNat - 48)) 0

/-- Rust u32::from_str: an optional plus sign, then decimal digits, with
the value below 2^32 (overflow is a parse error). -/
def parseU32 (s : String) : Option Nat :=
  let cs := match s.data with
    | '+' :: r => r
    | r => r
  if cs ≠ [] ∧ cs.all Char.isDigit then
    let n := digitsVal cs
    if n < 2 ^ 32 then some n else none
  else none

/-- Rust usize::from_str on a 64-bit target. -/
def parseUsize (s : String) : Option Nat :=
  let cs := match s.data with
    | '+' :: r => r
    | r => r
  if cs ≠ [] ∧ cs.all Char.isDigit then
    let n := digitsVal cs
    if n < 2 ^ 64 then some n else none
  else none

/-- Rust i64::from_str: optional sign, decimal digits, within i64 range. -/
def parseI64 (s : String) : Option Int :=
  let p := match s.data with
    | '+' :: r => (false, r)
    | '-' :: r => (true, r)
    | r => (false, r)
  if p.2 ≠ [] ∧ p.2.all Char.isDigit then
    let n := digitsVal p.2
    if p.1 then (if n ≤ 2 ^ 63 then some (-(n : Int)) else none)
    else (if n < 2 ^ 63 then some (n : Int) else none)
  else none

/-- ASCII lowercase of a character. -/
def toLowerCh (c : Char) : Char :=
  if 65 ≤ c.toNat ∧ c.toNat ≤ 90 then Char.ofNat (c.toNat + 32) else c

/-- Rust f64::from_str: the grammar accepts inf, infinity and nan (case
insensitive, optionally signed) and decimal numbers with optional fraction
and exponent; the value is the correctly rounded binary64.  Returns the
bit pattern, or none when the string is not a float literal. -/
def parseF64 (s : String) : Option Nat :=
  let p := match s.data with
    | '+' :: r => (false, r)
    | '-' :: r => (true, r)
    | r => (false, r)
  let neg := p.1
  let cs := p.2
  let low := cs.map toLowerCh
  if low = ['i', 'n', 'f'] ∨ low = ['i', 'n', 'f', 'i', 'n', 'i', 't', 'y'] then
    some ((if neg then 2 ^ 63 else 0) + 2047 * 2 ^ 52)
  else if low = ['n', 'a', 'n'] then some (2047 * 2 ^ 52 + 2 ^ 51)
  else
    let d1 := cs.takeWhile Char.isDigit
    let r1 := cs.dropWhile Char.isDigit
    let q := match r1 with
      | '.' :: rest => (rest.takeWhile Char.isDigit, rest.dropWhile Char.isDigit)
      | _ => ([], r1)
    let d2 := q.1
    let r2 := q.2
    if d1 = [] ∧ d2 = [] then none
    else
      let w := match r2 with
        | 'e' :: rest => some rest
        | 'E' :: rest => some rest
        | [] => none
        | _ :: _ => none
      match r2 with
      | [] =>
        let m := digitsVal (d1 ++ d2)
        some (if 0 ≤ -(d2.length : Int) then dyToF64Bits neg (m * 10 ^ 0) 1
              else dyToF64Bits neg m (10 ^ d2.length))
      | _ =>
        match w with
        | none => none
        | some rest =>
          let q2 := match rest with
            | '+' :: r => (false, r)
            | '-' :: r => (true, r)
            | r => (false, r)
          let d3 := q2.2
          if d3 ≠ [] ∧ d3.all Char.isDigit ∧ d3.takeWhile Char.isDigit = d3 then
            let m := digitsVal (d1 ++ d2)
            let ex : Int := (if q2.1 then -(digitsVal d3 : Int) else (digitsVal d3 : Int)) - d2.length
            some (if 0 ≤ ex then dyToF64Bits neg (m * 10 ^ ex.toNat) 1
                  else dyToF64Bits neg m (10 ^ (-ex).toNat))
          else none

/-- Whether a string looks like a dictionary reference: an at-sign or hash
followed by text that parses as a u32. -/
def dictRefShape (s : String) : Bool :=
  match s.data with
  | c :: rest => (c == '@' || c == '#') && (parseU32 (String.mk rest)).isSome
  | [] => false

/-- needs_quoting from encoder.rs. -/
def needsQuoting (s : String) : Bool :=
  if s.data.isEmpty then true
  else if s = "_" ∨ s = "true" ∨ s = "false" then true
  else if dictRefShape s then true
  else if (parseF64 s).isSome then true
  else s.data.any (fun c => isRustWs c ∨
    c ∈ ['"', '\\', '|', '>', ',', '=', Char.ofNat 0x7B, Char.ofNat 0x7D,
         Char.ofNat 0x5B, Char.ofNat 0x5D, '@', '#'])

/-- quote_string from encoder.rs. -/
def quoteString (s : String) : String :=
  String.mk ('"' :: (s.data.flatMap (fun c =>
    if c = '"' then ['\\', '"']
    else if c = '\\' then ['\\', '\\']
    else if c = '\n' then ['\\', 'n']
    else if c = '\r' then ['\\', 'r']
    else if c = '\t' then ['\\', 't']
    else [c]) ++ ['"']))

/-- Decimal digits of the fractional part n / d, by repeated scaling;
finite for every binary64 fraction (fuel covers the 1074 possible digits). -/
def fracDigits : Nat → Nat → Nat → List Char
  | 0, _, _ => []
  | fuel + 1, n, d =>
    if n = 0 then []
    else Char.ofNat (48 + n * 10 / d) :: fracDigits fuel (n * 10 % d) d

/-- Decimal text of a finite binary64, as the exact decimal expansion with
no trailing zeros and no decimal point for integral values.  Modelled from
the spec: Rust's float Display prints the shortest decimal that round-trips;
on every integral float the two agree exactly, on non-integral floats this
model prints the full exact expansion instead of the shortest one (no claim
below depends on that text). -/
def f64Display (b : Nat) : String :=
  let m := (f64Dyadic b).1
  let e := (f64Dyadic b).2
  let neg := f64SignBit b == 1
  if f64Exp b == 2047 then (if f64Mant b == 0 then (if neg then "-inf" else "inf") else "NaN")
  else if 1075 ≤ e then
    (if neg ∧ m ≠ 0 then "-" else "") ++ toString (m * 2 ^ (e - 1075))
  else
    let d := 2 ^ (1075 - e)
    let ip := m / d
    let fr := m % d
    (if neg ∧ m ≠ 0 then "-" else "") ++ toString ip ++
      (if fr = 0 then "" else "." ++ String.mk (fracDigits 1100 fr d))

/-- serde_json string quoting (escape rules of serde_json to_string). -/
def jsonQuote (s : String) : String :=
  String.mk ('"' :: (s.data.flatMap (fun c =>
    if c = '"' then ['\\', '"']
    else if c = '\\' then ['\\', '\\']
    else if c = '\n' then ['\\', 'n']
    else if c = '\r' then ['\\', 'r']
    else if c = '\t' then ['\\', 't']
    else if c.toNat = 8 then ['\\', 'b']
    else if c.toNat = 12 then ['\\', 'f']
    else if c.toNat < 32 then
      ['\\', 'u', '0', '0', hexDigit (c.toNat / 16), hexDigit (c.toNat % 16)]
    else [c]) ++ ['"']))

mutual
/-- serde_json::to_string: compact JSON text of a value.  Modelled from the
spec at the number leaf: serde_json prints floats as their shortest
round-tripping decimal with a forced fraction; this model prints the exact
expansion (integral floats get the same forced .0) — no claim depends on
the float text. -/
def jsonCompact : JVal → String
  | .null => "null"
  | .bool true => "true"
  | .bool false => "false"
  | .int i => toString i
  | .float b =>
    if f64IsNan b || f64IsInf b then "null"
    else if f64FractZero b then f64Display b ++ ".0"
    else f64Display b
  | .str s => jsonQuote s
  | .arr es => "\x5b" ++ jsonCompactList es ++ "\x5d"
  | .obj fs => "\x7b" ++ jsonCompactFields fs ++ "\x7d"
/-- Comma-joined JSON of array elements. -/
def jsonCompactList : List JVal → String
  | [] => ""
  | [v] => jsonCompact v
  | v :: vs => jsonCompact v ++ "," ++ jsonCompactList vs
/-- Comma-joined JSON of object members. -/
def jsonCompactFields : List (String × JVal) → String
  | [] => ""
  | [(k, v)] => jsonQuote k ++ ":" ++ jsonCompact v
  | (k, v) :: fs => jsonQuote k ++ ":" ++ jsonCompact v ++ "," ++ jsonCompactFields fs
end

/-- format_tens_text_value from encoder.rs: nulls, booleans and numbers to
their literal forms (NaN and the infinities as quoted words, negative zero
as -0), strings through the dictionary or quoting, and nested arrays and
objects as quoted compact JSON. -/
def formatTensTextValue (v : JVal) (dict : List String) : String :=
  match v with
  | .null => "_"
  | .bool true => "true"
  | .bool false => "false"
  | .int i => toString i
  | .float b =>
    if f64IsNan b then "\"NaN\""
    else if f64IsInf b then (if f64SignBit b == 0 then "\"Infinity\"" else "\"-Infinity\"")
    else if b = 2 ^ 63 then "-0"
    else f64Display b
  | .str s =>
    match dict.indexOf? s with
    | some idx => "@" ++ toString idx
    | none => if needsQuoting s then quoteString s else s
  | .arr es => quoteString (jsonCompact (.arr es))
  | .obj fs => quoteString (jsonCompact (.obj fs))

/-- Scalar string values observed for the schema keys across all records
(the dictionary-count collection loop of encode_tens_text). -/
def recordStrings (keys : List String) (records : List JVal) : List String :=
  records.flatMap (fun r =>
    match r with
    | .obj fs => keys.filterMap (fun k =>
        match assocLookup fs k with
        | some (.str s) => some s
        | _ => none)
    | _ => [])

/-- The TENS-Text dictionary: every scalar string occurring at least twice,
sorted lexicographically (the source collects counts in a HashMap, filters,
and sorts — the sort makes the iteration order immaterial). -/
def textDict (keys : List String) (records : List JVal) : List String :=
  let all := recordStrings keys records
  sortStrings ((addKeys [] all).filter (fun s => 2 ≤ all.count s))

/-- The per-field lines of one record (scalar fields one line, repeating
fields one line per element, absent fields no line). -/
def recordLines (specs : List (String × String × Bool)) (dict : List String)
    (fs : List (String × JVal)) : String :=
  String.join (specs.map (fun spec =>
    match assocLookup fs spec.1 with
    | none => ""
    | some v =>
      if spec.2.2 then
        match v with
        | .arr items =>
          String.join (items.map (fun it =>
            "  " ++ spec.1 ++ " " ++ formatTensTextValue it dict ++ "\n"))
        | _ => ""
      else "  " ++ spec.1 ++ " " ++ formatTensTextValue v dict ++ "\n"))

/-- Record-list half of encode_tens_text (see encodeTensText). -/
def encodeTensTextRecords (records : List JVal) (encoding : Option String) :
    Except String String :=
  if records.isEmpty then .ok "@version 1\n"
  else
    match records.head? with
    | none => .error "Records must be objects"
    | some first =>
      match first with
      | .obj obj =>
        let keys := sortStrings (keysOf obj)
        let specs : List (String × String × Bool) := keys.map (fun k =>
          (k, inferType ((assocLookup obj k).getD .null),
            records.any (fun r =>
              match r with
              | .obj fs =>
                match assocLookup fs k with
                | some (.arr _) => true
                | _ => false
              | _ => false)))
        let dict := textDict keys records
        let schemaLine := "@schema data" ++
          String.join (specs.map (fun spec =>
            " " ++ spec.1 ++ ":" ++ spec.2.1 ++ (if spec.2.2 then "\x5b\x5d" else ""))) ++ "\n"
        let dictLine :=
          if dict.isEmpty then ""
          else "@dict" ++
            String.join (dict.map (fun e =>
              " " ++ (if needsQuoting e then quoteString e else e))) ++ "\n"
        let recsText := String.join (records.map (fun r =>
          match r with
          | .obj fs => "data\n" ++ recordLines specs dict fs
          | _ => ""))
        .ok ("@version 1\n" ++
          (match encoding with
            | some enc => "@encoding " ++ enc ++ "\n"
            | none => "") ++
          schemaLine ++ dictLine ++ "\n" ++ recsText)
      | _ => .error "Records must be objects"

/-- encode_tens_text from encoder.rs: canonicalize; an array's elements are
the records, a single object is one record, anything else is a schema
error; empty records give just the version line; otherwise the schema is
the sorted key list of the first record (which must be an object) with
types inferred from it and repeating flags from all records, the dictionary
collects repeated scalar strings, and each object record emits its lines
(non-object records emit nothing). -/
def encodeTensText (data : JVal) (encoding : Option String) : Except String String :=
  let canonical := canonicalize data
  match canonical with
  | .arr records => encodeTensTextRecords records encoding
  | .obj _ => encodeTensTextRecords [canonical] encoding
  | _ => .error "TENS-Text requires an array of objects or a single object"

/-! ### TENS-Text decoding -/

/-- Worker for str::split_whitespace; the fuel (the input length at the
top call) bounds the token count, so it never runs out. -/
def wsToksAux : Nat → List Char → List String
  | 0, _ => []
  | fuel + 1, cs =>
    match cs.dropWhile isRustWs with
    | [] => []
    | c :: rest =>
      String.mk (c :: rest.takeWhile (fun x => ¬ isRustWs x)) ::
        wsToksAux fuel (rest.dropWhile (fun x => ¬ isRustWs x))

/-- Rust str::split_whitespace. -/
def splitWs (s : String) : List String := wsToksAux s.data.length s.data

/-- Rust str::split_once at the first whitespace character. -/
def splitOnceWs (s : String) : Option (String × String) :=
  let pre := s.data.takeWhile (fun c => ¬ isRustWs c)
  let rest := s.data.dropWhile (fun c => ¬ isRustWs c)
  match rest with
  | [] => none
  | _ :: after => some (String.mk pre, String.mk after)

/-- Rust str::split_once at the first colon. -/
def splitOnceColon (s : String) : Option (String × String) :=
  let pre := s.data.takeWhile (fun c => c ≠ ':')
  let rest := s.data.dropWhile (fun c => c ≠ ':')
  match rest with
  | [] => none
  | _ :: after => some (String.mk pre, String.mk after)

/-- Quoted-segment reader of parse_dict_line: collect characters up to the
closing quote, resolving backslash escapes; returns the token and the rest.
The fuel (the input length at the top call) bounds the steps. -/
def unquoteLoop : Nat → List Char → List Char → List Char × List Char
  | 0, acc, rest => (acc, rest)
  | _ + 1, acc, [] => (acc, [])
  | fuel + 1, acc, c :: rest =>
    if c = '\\' then
      match rest with
      | [] => (acc, [])
      | e :: r =>
        let ch := if e = 'n' then '\n' else if e = 'r' then '\r' else if e = 't' then '\t' else e
        unquoteLoop fuel (acc ++ [ch]) r
    else if c = '"' then (acc, rest)
    else unquoteLoop fuel (acc ++ [c]) rest

/-- Token loop of parse_dict_line: skip whitespace, then read either a
quoted segment or a bare token. -/
def dictToksAux : Nat → List Char → List String
  | 0, _ => []
  | fuel + 1, cs =>
    match cs.dropWhile isRustWs with
    | [] => []
    | '"' :: rest =>
      let r := unquoteLoop rest.length [] rest
      String.mk r.1 :: dictToksAux fuel r.2
    | c :: rest =>
      String.mk (c :: rest.takeWhile (fun x => ¬ isRustWs x)) ::
        dictToksAux fuel (rest.dropWhile (fun x => ¬ isRustWs x))

/-- parse_dict_line from encoder.rs: drop the @dict directive word, trim,
and tokenize honoring quotes. -/
def parseDictLine (line : String) : List String :=
  let content := trimStr (String.mk (line.data.drop 5))
  dictToksAux content.data.length content.data

/-- Escape resolution of the quoted-string branch of parse_tens_text_value
(no terminator: the surrounding quotes are already stripped). -/
def unescapeChars : List Char → List Char
  | [] => []
  | c :: rest =>
    if c = '\\' then
      match rest with
      | [] => []
      | e :: r =>
        (if e = 'n' then '\n' else if e = 'r' then '\r' else if e = 't' then '\t' else e) ::
          unescapeChars r
    else c :: unescapeChars rest

/-- parse_tens_text_value from encoder.rs.  none models the panic: on the
one-character string consisting of a double quote, the source slices
s[1..0], which is a slice-index panic (both profiles, every target). -/
def parseTensTextValue (raw : String) (dict : List String) : Option JVal :=
  if raw = "_" then some .null
  else if raw = "true" then some (.bool true)
  else if raw = "false" then some (.bool false)
  else if raw.data.head? = some '@' then
    some (match parseUsize (String.mk (raw.data.drop 1)) with
      | some idx =>
        if h : idx < dict.length then .str (dict.get ⟨idx, h⟩) else .str raw
      | none => .str raw)
  else if raw.data.head? = some '"' ∧ raw.data.getLast? = some '"' then
    if raw.data.length = 1 then none
    else some (.str (String.mk (unescapeChars (raw.data.drop 1).dropLast)))
  else
    match parseI64 raw with
    | some i => some (.int i)
    | none =>
      match parseF64 raw with
      | some bits => some (f64ToJson bits)
      | none => some (.str raw)

/-- Whether a type token carries the repeating suffix (ends with
open-bracket close-bracket). -/
def bracketsSuffix (s : String) : Bool :=
  match s.data.reverse with
  | b :: a :: _ => b = Char.ofNat 0x5D ∧ a = Char.ofNat 0x5B
  | _ => false

/-- Line-loop state of decode_tens_text.  The parsed schema field names and
types are also tracked by the source, but nothing downstream reads them, so
the model keeps only the state that affects the result. -/
structure DttSt where
  dict : List String
  schemaName : String
  arrayFields : List String
  records : List JVal
  current : Option (List (String × JVal))

/-- One line of decode_tens_text: blank and comment lines skipped;
directive lines recognized by prefix; a line equal to the schema name
starts a record (flushing the previous one); a two-space-indented line
inside a record parses a field value as an overwrite or an append
(repeating fields).  none propagates the parse_tens_text_value panic. -/
def dttLine (st : DttSt) (line : String) : Option DttSt :=
  let trimmed := trimStr line
  if trimmed.data.isEmpty ∨ trimmed.data.head? = some '#' then some st
  else if strStarts trimmed "@version" then some st
  else if strStarts trimmed "@encoding" then some st
  else if strStarts trimmed "@schema" then
    let parts := splitWs trimmed
    if 2 ≤ parts.length then
      let af := (parts.drop 2).foldl (fun af part =>
        match splitOnceColon part with
        | some p =>
          if bracketsSuffix p.2 then (if p.1 ∈ af then af else af ++ [p.1]) else af
        | none => af) st.arrayFields
      some { st with schemaName := parts.getD 1 "", arrayFields := af }
    else some st
  else if strStarts trimmed "@dict" then
    some { st with dict := parseDictLine trimmed }
  else if trimmed = st.schemaName then
    some { st with
      records := st.records ++ (match st.current with
        | some rec => [JVal.obj rec]
        | none => []),
      current := some [] }
  else if strStarts line "  " ∧ st.current.isSome then
    match splitOnceWs trimmed with
    | some p =>
      let rawValue := trimStr p.2
      match parseTensTextValue rawValue st.dict with
      | none => none
      | some parsed =>
        let rec0 := st.current.getD []
        if p.1 ∈ st.arrayFields then
          let upd := match assocLookup rec0 p.1 with
            | none => mapInsert p.1 (.arr [parsed]) rec0
            | some (.arr a) => mapInsert p.1 (.arr (a ++ [parsed])) rec0
            | some _ => rec0
          some { st with current := some upd }
        else some { st with current := some (mapInsert p.1 parsed rec0) }
    | none => some st
  else some st

/-- decode_tens_text line loop over Rust lines, producing the record list
(with the in-progress record flushed); none is a panic. -/
def decodeTensTextCore (input : String) : Option (List JVal) :=
  let final := (rustLines input).foldl (fun ost line =>
    match ost with
    | none => none
    | some st => dttLine st line)
    (some ⟨[], "", [], [], none⟩)
  match final with
  | none => none
  | some st =>
    some (st.records ++ (match st.current with
      | some rec => [JVal.obj rec]
      | none => []))

/-- decode_tens_text from encoder.rs: the record list, returned as a single
object when exactly one record was parsed and as an array otherwise; the
Result layer never carries an error, and none is a panic. -/
def decodeTensText (input : String) : Option (Except String JVal) :=
  match decodeTensTextCore input with
  | none => none
  | some records =>
    some (.ok (match records with
      | [r] => r
      | rs => .arr rs))

/-! ### Order lemmas for the key comparison -/

theorem charsLe_total (a b : List Char) : charsLe a b = true ∨ charsLe b a = true := by
  induction a generalizing b with
  | nil => left; simp [charsLe]
  | cons x xs ih =>
    cases b with
    | nil => right; simp [charsLe]
    | cons y ys =>
      by_cases h1 : x.toNat < y.toNat
      · left; simp [charsLe, h1]
      · by_cases h2 : y.toNat < x.toNat
        · right; simp [charsLe, h2]
        · have hx : ¬ x.toNat < y.toNat := h1
          rcases ih ys with h | h
          · left; simp [charsLe, h1, h2, h]
          · right; simp [charsLe, h1, h2, h]

theorem charsLe_trans {a b c : List Char} (h1 : charsLe a b = true)
    (h2 : charsLe b c = true) : charsLe a c = true := by
  induction a generalizing b c with
  | nil => simp [charsLe]
  | cons x xs ih =>
    cases b with
    | nil => simp [charsLe] at h1
    | cons y ys =>
      cases c with
      | nil => simp [charsLe] at h2
      | cons z zs =>
        simp only [charsLe] at h1 h2 ⊢
        by_cases hxy : x.toNat < y.toNat
        · by_cases hyz : y.toNat < z.toNat
          · simp [show x.toNat < z.toNat by omega]
          · simp only [if_neg hyz] at h2
            by_cases hzy : z.toNat < y.toNat
            · simp [hzy] at h2
            · simp [show x.toNat < z.toNat by omega]
        · simp only [if_neg hxy] at h1
          by_cases hyx : y.toNat < x.toNat
          · simp [hyx] at h1
          · by_cases hyz : y.toNat < z.toNat
            · simp [show x.toNat < z.toNat by omega]
            · simp only [if_neg hyz] at h2
              by_cases hzy : z.toNat < y.toNat
              · simp [hzy] at h2
              · have hxz : ¬ x.toNat < z.toNat := by omega
                have hzx : ¬ z.toNat < x.toNat := by omega
                simp only [if_neg hyx] at h1
                simp only [if_neg hzy] at h2
                simp only [if_neg hxz, if_neg hzx]
                exact ih h1 h2

theorem charsLe_antisymm {a b : List Char} (h1 : charsLe a b = true)
    (h2 : charsLe b a = true) : a = b := by
  induction a generalizing b with
  | nil =>
    cases b with
    | nil => rfl
    | cons y ys => simp [charsLe] at h2
  | cons x xs ih =>
    cases b with
    | nil => simp [charsLe] at h1
    | cons y ys =>
      rcases Nat.lt_trichotomy x.toNat y.toNat with hlt | heq | hgt
      · simp [charsLe, hlt, show ¬ y.toNat < x.toNat by omega] at h2
      · have hx : ¬ x.toNat < y.toNat := by omega
        have hy : ¬ y.toNat < x.toNat := by omega
        simp only [charsLe, if_neg hx, if_neg hy] at h1 h2
        have hchar : x = y := by
          calc x = Char.ofNat x.toNat := (Char.ofNat_toNat x).symm
          _ = Char.ofNat y.toNat := by rw [heq]
          _ = y := Char.ofNat_toNat y
        rw [hchar, ih h1 h2]
      · simp [charsLe, hgt, show ¬ x.toNat < y.toNat by omega] at h1

theorem strLeB_total (s t : String) : strLeB s t = true ∨ strLeB t s = true :=
  charsLe_total s.data t.data

theorem strLeB_trans {s t u : String} (h1 : strLeB s t = true)
    (h2 : strLeB t u = true) : strLeB s u = true :=
  charsLe_trans h1 h2

theorem strLeB_antisymm {s t : String} (h1 : strLeB s t = true)
    (h2 : strLeB t s = true) : s = t := by
  cases s with
  | mk a => cases t with
    | mk b => exact congrArg String.mk (charsLe_antisymm h1 h2)

instance pairLeTotal : IsTotal (String × JVal) (fun a b => strLeB a.1 b.1 = true) :=
  ⟨fun a b => strLeB_total a.1 b.1⟩

instance pairLeTrans : IsTrans (String × JVal) (fun a b => strLeB a.1 b.1 = true) :=
  ⟨fun _ _ _ h1 h2 => strLeB_trans h1 h2⟩

instance strLeTotal : IsTotal String (fun a b => strLeB a b = true) :=
  ⟨fun a b => strLeB_total a b⟩

instance strLeTrans : IsTrans String (fun a b => strLeB a b = true) :=
  ⟨fun _ _ _ h1 h2 => strLeB_trans h1 h2⟩

/-! ### Induction principle for the nested value type -/

/-- Structural induction over JVal that hands array elements and object
field values to the motive through list membership. -/
def jvalInd {P : JVal → Prop}
    (hnull : P .null) (hbool : ∀ b, P (.bool b)) (hint : ∀ i, P (.int i))
    (hfloat : ∀ b, P (.float b)) (hstr : ∀ s, P (.str s))
    (harr : ∀ l, (∀ v ∈ l, P v) → P (.arr l))
    (hobj : ∀ fs, (∀ kv ∈ fs, P kv.2) → P (.obj fs)) : ∀ v, P v
  | .null => hnull
  | .bool b => hbool b
  | .int i => hint i
  | .float b => hfloat b
  | .str s => hstr s
  | .arr l => harr l (fun v hv =>
      jvalInd hnull hbool hint hfloat hstr harr hobj v)
  | .obj fs => hobj fs (fun kv hkv =>
      jvalInd hnull hbool hint hfloat hstr harr hobj kv.2)
termination_by v => sizeOf v
decreasing_by
  · have := List.sizeOf_lt_of_mem hv; simp; omega
  · obtain ⟨k, w⟩ := kv
    have := List.sizeOf_lt_of_mem hkv
    simp at this ⊢
    omega

/-! ### Map-insertion lemmas and canonical object structure -/

/-- Strictly-ascending key order on an object field list (the shape every
canonical object has). -/
def keyStrict (fs : List (String × JVal)) : Prop :=
  List.Pairwise (fun a b => strLeB a.1 b.1 = true ∧ a.1 ≠ b.1) fs

theorem assocLookup_mapInsert (k : String) (v : JVal) (m : List (String × JVal)) (q : String) :
    assocLookup (mapInsert k v m) q = if q = k then some v else assocLookup m q := by
  induction m with
  | nil =>
    by_cases hq : q = k
    · simp [mapInsert, assocLookup, hq]
    · simp [mapInsert, assocLookup, hq]
  | cons p rest ih =>
    obtain ⟨k1, w⟩ := p
    by_cases hk : k = k1
    · subst hk
      by_cases hq : q = k
      · simp [mapInsert, assocLookup, hq]
      · simp [mapInsert, assocLookup, hq]
    · by_cases hq : q = k1
      · have hqk : q ≠ k := by rw [hq]; exact fun h => hk h.symm
        have hk1 : k1 ≠ k := fun he => hk he.symm
        simp [mapInsert, assocLookup, hk, hq, hqk, hk1]
      · simp [mapInsert, assocLookup, hk, hq, ih]

theorem mem_mapInsert {a : String × JVal} {k : String} {v : JVal}
    {m : List (String × JVal)} (h : a ∈ mapInsert k v m) : a = (k, v) ∨ a ∈ m := by
  induction m with
  | nil => simp [mapInsert] at h; simp [h]
  | cons p rest ih =>
    obtain ⟨k1, w⟩ := p
    by_cases hk : k = k1
    · simp [mapInsert, hk] at h
      rcases h with h | h
      · left; rw [h, hk]
      · right; simp [h]
    · simp [mapInsert, hk] at h
      rcases h with h | h
      · right; simp [h]
      · rcases ih h with h2 | h2
        · left; exact h2
        · right; simp [h2]

theorem mapInsert_strict {k : String} {v : JVal} {m : List (String × JVal)}
    (hs : keyStrict m) (hle : ∀ a ∈ m, strLeB a.1 k = true) :
    keyStrict (mapInsert k v m) := by
  induction m with
  | nil => simp [mapInsert, keyStrict]
  | cons p rest ih =>
    obtain ⟨k1, w⟩ := p
    rw [keyStrict, List.pairwise_cons] at hs
    obtain ⟨hhead, htail⟩ := hs
    by_cases hk : k = k1
    · subst hk
      simp only [mapInsert, eq_self_iff_true, if_true]
      rw [keyStrict, List.pairwise_cons]
      exact ⟨fun b hb => hhead b hb, htail⟩
    · simp only [mapInsert, if_neg hk]
      rw [keyStrict, List.pairwise_cons]
      constructor
      · intro b hb
        rcases mem_mapInsert hb with h2 | h2
        · rw [h2]
          refine ⟨hle (k1, w) (by simp), fun he => hk he.symm⟩
        · exact hhead b h2
      · exact ih htail (fun a ha => hle a (by simp [ha]))

theorem mem_foldInsert {a : String × JVal} {ps m : List (String × JVal)}
    (h : a ∈ foldInsert ps m) : a ∈ ps ∨ a ∈ m := by
  induction ps generalizing m with
  | nil => right; simpa [foldInsert] using h
  | cons p rest ih =>
    obtain ⟨k, v⟩ := p
    rw [foldInsert] at h
    rcases ih h with h2 | h2
    · left; simp [h2]
    · rcases mem_mapInsert h2 with h3 | h3
      · left; simp [h3]
      · right; exact h3

theorem foldInsert_strict {ps m : List (String × JVal)}
    (hps : List.Pairwise (fun a b => strLeB a.1 b.1 = true) ps)
    (hm : keyStrict m)
    (hcross : ∀ a ∈ m, ∀ p ∈ ps, strLeB a.1 p.1 = true) :
    keyStrict (foldInsert ps m) := by
  induction ps generalizing m with
  | nil => simpa [foldInsert] using hm
  | cons p rest ih =>
    obtain ⟨k, v⟩ := p
    rw [List.pairwise_cons] at hps
    obtain ⟨hhead, htail⟩ := hps
    rw [foldInsert]
    apply ih htail
    · exact mapInsert_strict hm (fun a ha => hcross a ha (k, v) (by simp))
    · intro a ha q hq
      rcases mem_mapInsert ha with h2 | h2
      · rw [h2]; exact hhead q hq
      · exact hcross a h2 q (by simp [hq])

/-- Insertion of a fresh key appends it at the end. -/
theorem mapInsert_notMem {k : String} {v : JVal} {m : List (String × JVal)}
    (h : ∀ a ∈ m, a.1 ≠ k) : mapInsert k v m = m ++ [(k, v)] := by
  induction m with
  | nil => simp [mapInsert]
  | cons p rest ih =>
    obtain ⟨k1, w⟩ := p
    have hk : k ≠ k1 := fun he => h (k1, w) (by simp) he.symm
    simp only [mapInsert, if_neg hk, List.cons_append, List.cons.injEq, true_and]
    exact ih (fun a ha => h a (by simp [ha]))

/-- Re-inserting a strictly sorted field list into a map that sits entirely
strictly below it reproduces the concatenation: in particular over the empty
map the canonical field list is a fixed point of the re-insertion loop. -/
theorem foldInsert_strict_self {l m : List (String × JVal)}
    (hst : keyStrict (m ++ l)) : foldInsert l m = m ++ l := by
  induction l generalizing m with
  | nil => simp [foldInsert]
  | cons p rest ih =>
    obtain ⟨k, v⟩ := p
    rw [foldInsert]
    have hfresh : ∀ a ∈ m, a.1 ≠ k := by
      intro a ha
      have := (List.pairwise_append.mp hst).2.2 a ha (k, v) (by simp)
      exact this.2
    rw [mapInsert_notMem hfresh]
    have hst2 : keyStrict ((m ++ [(k, v)]) ++ rest) := by
      rw [List.append_assoc]
      simpa using hst
    rw [ih hst2, List.append_assoc]
    simp

/-! ### String canonicalization lemmas -/

theorem strData_append (s t : String) : (s ++ t).data = s.data ++ t.data := rfl

theorem trimEndStr_idem (s : String) : trimEndStr (trimEndStr s) = trimEndStr s := by
  simp [trimEndStr, List.dropWhile_idempotent]

theorem trimEndStr_mem {c : Char} {s : String} (h : c ∈ (trimEndStr s).data) : c ∈ s.data := by
  simp only [trimEndStr] at h
  rw [List.mem_reverse] at h
  have := (List.dropWhile_sublist (l := s.data.reverse) isRustWs).mem h
  rwa [List.mem_reverse] at this

theorem trimEndStr_getLast {s : String} {c : Char}
    (h : (trimEndStr s).data.getLast? = some c) : isRustWs c = false := by
  simp only [trimEndStr] at h
  rw [List.getLast?_reverse] at h
  have := List.head?_dropWhile_not isRustWs s.data.reverse
  rw [h] at this
  exact this

/-- finishLine strips one trailing carriage return of the line read so far
(the accumulator holds the line reversed). -/
theorem finishLine_eq (acc : List Char) :
    finishLine acc = String.mk (dropTrailCr acc.reverse) := by
  match acc with
  | [] => rfl
  | c :: r =>
    by_cases hc : c = '\r'
    · subst hc
      simp only [finishLine, dropTrailCr, List.reverse_cons]
      rw [List.getLast?_concat]
      simp [List.dropLast_concat]
    · simp only [finishLine, if_neg hc, dropTrailCr, List.reverse_cons]
      rw [List.getLast?_concat]
      rw [if_neg (by simpa using hc)]

/-- Characters of a finished line come from the accumulator. -/
theorem finishLine_mem {c : Char} {acc : List Char} (h : c ∈ (finishLine acc).data) :
    c ∈ acc := by
  match acc with
  | [] => simp [finishLine] at h
  | a :: r =>
    by_cases ha : a = '\r'
    · subst ha
      simp only [finishLine, if_true] at h
      rw [List.mem_reverse] at h
      simp [h]
    · simp only [finishLine, if_neg ha] at h
      rw [List.mem_reverse] at h
      exact h

/-- Lines produced by the scanner contain no newline (provided the
accumulator has none: it only ever collects non-newline characters). -/
theorem linesAux_mem_no_nl :
    ∀ (cs acc : List Char), '\n' ∉ acc → ∀ x ∈ linesAux cs acc, '\n' ∉ x.data := by
  intro cs
  induction cs with
  | nil =>
    intro acc hacc x hx hmem
    simp only [linesAux] at hx
    by_cases ha : acc.isEmpty
    · rw [if_pos ha] at hx; simp at hx
    · rw [if_neg ha] at hx
      simp only [List.mem_singleton] at hx
      subst hx
      rw [List.mem_reverse] at hmem
      exact hacc hmem
  | cons c cs2 ih =>
    intro acc hacc x hx hmem
    rw [linesAux] at hx
    by_cases hc : c = '\n'
    · rw [if_pos hc] at hx
      rcases List.mem_cons.mp hx with h2 | h2
      · subst h2
        exact hacc (finishLine_mem hmem)
      · exact ih [] (by simp) x h2 hmem
    · rw [if_neg hc] at hx
      refine ih (c :: acc) ?_ x hx hmem
      intro h2
      rcases List.mem_cons.mp h2 with h3 | h3
      · exact hc h3.symm
      · exact hacc h3

/-- linesAux on newline-free input yields at most one line: the accumulator
followed by the input. -/
theorem linesAux_no_nl {cs : List Char} (h : '\n' ∉ cs) (acc : List Char) :
    linesAux cs acc =
      if acc.reverse ++ cs = [] then [] else [String.mk (acc.reverse ++ cs)] := by
  induction cs generalizing acc with
  | nil =>
    simp only [linesAux, List.append_nil]
    by_cases ha : acc = []
    · subst ha; simp
    · rw [if_neg (by simp [ha]), if_neg (by simp [ha])]
  | cons c rest ih =>
    have hc : ¬ c = '\n' := fun he => h (by simp [he])
    have hrest : '\n' ∉ rest := fun hm => h (by simp [hm])
    rw [linesAux, if_neg hc, ih hrest]
    have he : ((c :: acc).reverse : List Char) ++ rest = acc.reverse ++ c :: rest := by simp
    rw [he]

/-- linesAux splits at the first newline: one finished line, then the rest. -/
theorem linesAux_append_nl {xs : List Char} (h : '\n' ∉ xs) (acc ys : List Char) :
    linesAux (xs ++ '\n' :: ys) acc =
      finishLine (xs.reverse ++ acc) :: linesAux ys [] := by
  induction xs generalizing acc with
  | nil => simp [linesAux]
  | cons c rest ih =>
    have hc : ¬ c = '\n' := fun he => h (by simp [he])
    have hrest : '\n' ∉ rest := fun hm => h (by simp [hm])
    rw [List.cons_append, linesAux, if_neg hc, ih hrest]
    simp

/-- rustLines recovers a line list whose lines contain no newline and do
not end in a carriage return, when the last line is nonempty. -/
theorem rustLines_joinNl {ls : List String}
    (hnl : ∀ l ∈ ls, '\n' ∉ l.data)
    (hcr : ∀ l ∈ ls, l.data.getLast? ≠ some '\r')
    (hlast : ls.getLast? ≠ some "") :
    rustLines (joinNl ls) = ls := by
  induction ls with
  | nil => rfl
  | cons l rest ih =>
    match rest with
    | [] =>
      have hl : l.data ≠ [] := by
        intro he
        apply hlast
        have hq : l = "" := by
          cases l with
          | mk d =>
            simp only at he
            rw [he]
        simp [hq]
      rw [joinNl, rustLines, linesAux_no_nl (hnl l (by simp)) []]
      rw [List.reverse_nil, List.nil_append, if_neg hl]
    | l2 :: rest2 =>
      have hjoin : joinNl (l :: l2 :: rest2) = l ++ "\n" ++ joinNl (l2 :: rest2) := rfl
      rw [hjoin, rustLines]
      have hdata : (l ++ "\n" ++ joinNl (l2 :: rest2)).data
          = l.data ++ '\n' :: (joinNl (l2 :: rest2)).data := by
        rw [strData_append, strData_append]
        rw [show ("\n" : String).data = ['\n'] from rfl, List.append_assoc]
        rfl
      rw [hdata, linesAux_append_nl (hnl l (by simp)) [] _]
      rw [finishLine_eq]
      rw [List.append_nil, List.reverse_reverse]
      have hfl : dropTrailCr l.data = l.data := by
        rw [dropTrailCr, if_neg (hcr l (by simp))]
      rw [hfl]
      have hrest : rustLines (joinNl (l2 :: rest2)) = l2 :: rest2 := by
        apply ih
        · intro x hx; exact hnl x (by simp [hx])
        · intro x hx; exact hcr x (by simp [hx])
        · intro hx
          apply hlast
          rw [List.getLast?_cons_cons]
          exact hx
      rw [rustLines] at hrest
      rw [hrest]

/-- The canonical line list of any string: no newlines inside lines and no
trailing carriage returns. -/
theorem canonLines_clean (s : String) :
    (∀ l ∈ (rustLines s).map trimEndStr, '\n' ∉ l.data) ∧
      (∀ l ∈ (rustLines s).map trimEndStr, l.data.getLast? ≠ some '\r') := by
  constructor
  · intro l hl hmem
    rw [List.mem_map] at hl
    obtain ⟨l0, hl0, rfl⟩ := hl
    exact linesAux_mem_no_nl s.data [] (by simp) l0 hl0 (trimEndStr_mem hmem)
  · intro l hl hcr
    rw [List.mem_map] at hl
    obtain ⟨l0, hl0, rfl⟩ := hl
    have := trimEndStr_getLast hcr
    simp [isRustWs] at this

/-- A string whose canonical line list does not end with an empty line is
stable under a second canonicalization. -/
theorem canonStr_idem {s : String} (hgood : goodStrB s = true) :
    canonStr (canonStr s) = canonStr s := by
  conv in canonStr (canonStr s) => rw [canonStr, nfkc]
  have hclean := canonLines_clean (nfkc s)
  have hlast : ((rustLines (nfkc s)).map trimEndStr).getLast? ≠ some "" := by
    intro hx
    rw [goodStrB] at hgood
    rw [List.getLastD_eq_getLast?, hx] at hgood
    simp at hgood
  have hrl : rustLines (canonStr s) = (rustLines (nfkc s)).map trimEndStr := by
    rw [canonStr]
    exact rustLines_joinNl hclean.1 hclean.2 hlast
  rw [hrl]
  have hmap : ((rustLines (nfkc s)).map trimEndStr).map trimEndStr
      = (rustLines (nfkc s)).map trimEndStr := by
    rw [List.map_map]
    apply List.map_congr_left
    intro l _
    exact trimEndStr_idem l
  rw [hmap, canonStr]

/-! ### Canonicalization structure lemmas -/

theorem canonList_eq (es : List JVal) : canonList es = es.map canonicalize := by
  induction es with
  | nil => simp [canonList]
  | cons v vs ih => simp [canonList, ih]

theorem canonFields_eq (fs : List (String × JVal)) :
    canonFields fs = fs.map (fun kv => (kv.1, canonicalize kv.2)) := by
  induction fs with
  | nil => simp [canonFields]
  | cons kv rest ih =>
    obtain ⟨k, v⟩ := kv
    simp [canonFields, ih]

theorem canonFields_self {fs : List (String × JVal)}
    (h : ∀ kv ∈ fs, canonicalize kv.2 = kv.2) : canonFields fs = fs := by
  induction fs with
  | nil => simp [canonFields]
  | cons kv rest ih =>
    obtain ⟨k, v⟩ := kv
    rw [canonFields, h (k, v) (by simp), ih (fun kv hkv => h kv (by simp [hkv]))]

/-- The object produced by canonicalization is strictly sorted by key. -/
theorem canonObj_strict (fs : List (String × JVal)) :
    keyStrict (foldInsert (sortPairs (canonFields fs)) []) := by
  apply foldInsert_strict
  · have := List.sorted_insertionSort (fun a b : String × JVal => strLeB a.1 b.1 = true)
      (canonFields fs)
    exact this
  · simp [keyStrict]
  · intro a ha
    simp at ha

theorem strsOkList_mem {es : List JVal} (h : strsOkList es = true) :
    ∀ v ∈ es, strsOk v = true := by
  induction es with
  | nil => simp
  | cons v vs ih =>
    rw [strsOkList, Bool.and_eq_true] at h
    intro x hx
    rcases List.mem_cons.mp hx with h2 | h2
    · rw [h2]; exact h.1
    · exact ih h.2 x h2

theorem strsOkFields_mem {fs : List (String × JVal)} (h : strsOkFields fs = true) :
    ∀ kv ∈ fs, strsOk kv.2 = true := by
  induction fs with
  | nil => simp
  | cons kv rest ih =>
    obtain ⟨k, v⟩ := kv
    rw [strsOkFields, Bool.and_eq_true] at h
    intro x hx
    rcases List.mem_cons.mp hx with h2 | h2
    · rw [h2]; exact h.1
    · exact ih h.2 x h2

/-- Idempotence of canonicalization on every value whose strings have
nonempty final canonical lines. -/
theorem canon_idem_aux :
    ∀ v, strsOk v = true → canonicalize (canonicalize v) = canonicalize v := by
  apply jvalInd
  · intro _; rfl
  · intro b _; rfl
  · intro i _; rfl
  · intro b _
    rw [canonicalize]
    by_cases h1 : (f64IsNan b || f64IsInf b) = true
    · rw [if_pos h1]
      rw [canonicalize]
    · rw [if_neg h1]
      by_cases h2 : b = 2 ^ 63
      · rw [if_pos h2]
        rw [canonicalize]
      · rw [if_neg h2]
        rw [canonicalize, if_neg h1, if_neg h2]
  · intro s h
    rw [strsOk] at h
    simp [canonicalize, canonStr_idem h]
  · intro l ih h
    rw [strsOk] at h
    have hmem := strsOkList_mem h
    simp only [canonicalize, canonList_eq, List.map_map]
    congr 1
    apply List.map_congr_left
    intro v hv
    exact ih v hv (hmem v hv)
  · intro fs ih h
    rw [strsOk] at h
    have hmem := strsOkFields_mem h
    have hIH : ∀ kv ∈ fs, canonicalize (canonicalize kv.2) = canonicalize kv.2 :=
      fun kv hkv => ih kv hkv (hmem kv hkv)
    have hg : canonicalize (JVal.obj fs)
        = JVal.obj (foldInsert (sortPairs (canonFields fs)) []) := by
      rw [canonicalize]
    rw [hg]
    have hstrict := canonObj_strict fs
    have hval : ∀ kv ∈ foldInsert (sortPairs (canonFields fs)) [],
        canonicalize kv.2 = kv.2 := by
      intro kv hkv
      rcases mem_foldInsert hkv with h2 | h2
      · have h3 := (List.perm_insertionSort
          (fun a b : String × JVal => strLeB a.1 b.1 = true) (canonFields fs)).mem_iff.mp h2
        rw [canonFields_eq, List.mem_map] at h3
        obtain ⟨kv0, hkv0, rfl⟩ := h3
        exact hIH kv0 hkv0
      · simp at h2
    rw [canonicalize]
    rw [canonFields_self hval]
    have hle : List.Pairwise (fun a b : String × JVal => strLeB a.1 b.1 = true)
        (foldInsert (sortPairs (canonFields fs)) []) := by
      exact hstrict.imp (fun hab => hab.1)
    have hsp : sortPairs (foldInsert (sortPairs (canonFields fs)) [])
        = foldInsert (sortPairs (canonFields fs)) [] := by
      rw [sortPairs]
      exact List.Sorted.insertionSort_eq hle
    rw [hsp]
    have hself := foldInsert_strict_self (l := foldInsert (sortPairs (canonFields fs)) [])
      (m := []) (by simpa using hstrict)
    rw [hself]
    rw [List.nil_append]

/-! ### Bridge between the line scanner and newline segments -/

/-- Prepend accumulated characters onto the head segment. -/
def consHeadPre (pre : List Char) : List (List Char) → List (List Char)
  | [] => [pre]
  | h :: t => (pre ++ h) :: t

theorem splitNl_ne_nil (cs : List Char) : splitNl cs ≠ [] := by
  match cs with
  | [] => simp [splitNl]
  | c :: rest =>
    rw [splitNl]
    by_cases hc : c = '\n'
    · rw [if_pos hc]; simp
    · rw [if_neg hc]
      match h : splitNl rest with
      | [] => simp
      | h2 :: t2 => simp

theorem consHeadPre_nil_pre {l : List (List Char)} (h : l ≠ []) :
    consHeadPre [] l = l := by
  match l with
  | [] => exact absurd rfl h
  | h2 :: t2 => simp [consHeadPre]

/-- The line scanner in terms of the newline segments of its input. -/
theorem linesAux_splitNl : ∀ (cs acc : List Char),
    linesAux cs acc = linesFromSegs (consHeadPre acc.reverse (splitNl cs)) := by
  intro cs
  induction cs with
  | nil =>
    intro acc
    rw [linesAux, splitNl, consHeadPre, linesFromSegs]
    by_cases ha : acc.isEmpty
    · rw [if_pos ha]
      rw [if_pos (by simpa using ha)]
    · rw [if_neg ha]
      rw [if_neg (by simpa using ha)]
      simp
  | cons c cs2 ih =>
    intro acc
    rw [linesAux, splitNl]
    by_cases hc : c = '\n'
    · rw [if_pos hc, if_pos hc]
      match h2 : splitNl cs2 with
      | [] => exact absurd h2 (splitNl_ne_nil cs2)
      | s2 :: t2 =>
        rw [consHeadPre, List.append_nil]
        rw [show linesFromSegs (acc.reverse :: s2 :: t2)
            = String.mk (dropTrailCr acc.reverse) :: linesFromSegs (s2 :: t2) from rfl]
        rw [finishLine_eq]
        rw [ih []]
        rw [List.reverse_nil, h2, consHeadPre_nil_pre (List.cons_ne_nil _ _)]
    · rw [if_neg hc, if_neg hc]
      rw [ih (c :: acc)]
      match h2 : splitNl cs2 with
      | [] => exact absurd h2 (splitNl_ne_nil cs2)
      | s2 :: t2 =>
        rw [consHeadPre, consHeadPre]
        rw [List.reverse_cons, List.append_assoc]
        rfl

theorem trimEndStr_dropTrailCr (cs : List Char) :
    trimEndStr (String.mk (dropTrailCr cs)) = trimEndStr (String.mk cs) := by
  by_cases h : cs.getLast? = some '\r'
  · obtain ⟨t, rfl⟩ := List.getLast?_eq_some_iff.mp h
    rw [dropTrailCr, if_pos (by rw [List.getLast?_concat]), List.dropLast_concat]
    simp only [trimEndStr]
    rw [List.reverse_append]
    rw [show (['\r'] : List Char).reverse = ['\r'] from rfl]
    rw [List.singleton_append, List.dropWhile_cons]
    rw [if_pos (by simp [isRustWs])]
  · rw [dropTrailCr, if_neg h]

/-- dropLastEmpty distributes over a cons with a nonempty tail. -/
theorem dropLastEmpty_cons {cs : List Char} {rest : List (List Char)} (h : rest ≠ []) :
    dropLastEmpty (cs :: rest) = cs :: dropLastEmpty rest := by
  match rest with
  | [] => exact absurd rfl h
  | r :: rs =>
    rw [dropLastEmpty, dropLastEmpty]
    have hl : (cs :: r :: rs).getLast? = (r :: rs).getLast? := rfl
    rw [hl]
    by_cases h2 : (r :: rs).getLast? = some []
    · rw [if_pos h2, if_pos h2]
      rfl
    · rw [if_neg h2, if_neg h2]

/-- Trimming the Rust lines of a segment list equals trimming the segments
with the trailing empty segment dropped. -/
theorem map_trim_linesFromSegs : ∀ segs : List (List Char),
    (linesFromSegs segs).map trimEndStr
      = (dropLastEmpty segs).map (fun cs => trimEndStr (String.mk cs)) := by
  intro segs
  induction segs with
  | nil => rfl
  | cons cs rest ih =>
    match rest with
    | [] =>
      rw [linesFromSegs, dropLastEmpty]
      by_cases h : cs.isEmpty
      · rw [if_pos h]
        rw [if_pos (by simp [List.getLast?_singleton]; simpa [List.isEmpty_iff] using h)]
        simp
      · rw [if_neg h]
        rw [if_neg (by simp [List.getLast?_singleton]; simpa [List.isEmpty_iff] using h)]
        simp
    | s2 :: t2 =>
      rw [show linesFromSegs (cs :: s2 :: t2)
          = String.mk (dropTrailCr cs) :: linesFromSegs (s2 :: t2) from rfl]
      rw [dropLastEmpty_cons (List.cons_ne_nil _ _)]
      rw [List.map_cons, List.map_cons]
      rw [trimEndStr_dropTrailCr, ih]

/-- The canonical string pipeline agrees with the amended claim pipeline. -/
theorem canonStr_eq_amended (s : String) : canonStr s = canonStrAmended s := by
  rw [canonStr, canonStrAmended]
  have h1 : rustLines (nfkc s) = linesFromSegs (splitNl (nfkc s).data) := by
    rw [rustLines, linesAux_splitNl (nfkc s).data []]
    rw [List.reverse_nil, consHeadPre_nil_pre (splitNl_ne_nil (nfkc s).data)]
  rw [h1, map_trim_linesFromSegs]

/-! ### Claim theorems: canonical string rule and idempotence -/

/-- C3 counterexample: the claim says the segment after a final newline is
kept (a string ending in a newline keeps it), but canonicalization of the
string consisting of the letter a then a newline drops the newline, while
the claim pipeline keeps it. -/
theorem c3_counterexample :
    canonicalize (.str "a\n") = .str "a" ∧
      canonStrClaim "a\n" = "a\n" ∧ ("a" : String) ≠ "a\n" := by
  refine ⟨?_, by decide, by decide⟩
  rw [canonicalize]
  rw [show canonStr "a\n" = "a" from by decide]

/-- C3 amended: canonicalize on a string NFKC-normalizes, splits on
newlines, strips trailing whitespace from each segment and rejoins —
except that the empty segment after a final newline produces no line, so a
trailing newline is dropped. -/
theorem c3_canonical_string (s : String) :
    canonicalize (.str s) = .str (canonStrAmended s) := by
  rw [canonicalize, canonStr_eq_amended]

/-- C4 counterexample: canonicalization is not idempotent: on the string
value a-newline-newline the first application yields a-newline and the
second yields a. -/
theorem c4_counterexample :
    canonicalize (canonicalize (.str "a\n\n")) ≠ canonicalize (.str "a\n\n") := by
  have h0 : canonicalize (.str "a\n\n") = .str "a\n" := by
    rw [canonicalize]
    rw [show canonStr "a\n\n" = "a\n" from by decide]
  have h1 : canonicalize (.str "a\n") = .str "a" := by
    rw [canonicalize]
    rw [show canonStr "a\n" = "a" from by decide]
  rw [h0, h1]
  intro hc
  have h2 : ("a" : String) = "a\n" := JVal.str.inj hc
  exact absurd h2 (by decide)

/-- C4 amended: canonicalization is idempotent on every value none of whose
string values canonicalizes to a line list ending in an empty line
(equivalently, no string value whose trimmed line list has an empty final
line; each extra application can only drop trailing empty lines). -/
theorem c4_idempotent (v : JVal) (h : strsOk v = true) :
    canonicalize (canonicalize v) = canonicalize v :=
  canon_idem_aux v h

/-- C4 witness: idempotence at a concrete object with an array, strings
and numbers. -/
theorem c4_witness :
    strsOk (.obj [("b", .str "hi there"), ("a", .arr [.int 1, .str "x y"])]) = true ∧
      canonicalize (canonicalize
          (.obj [("b", .str "hi there"), ("a", .arr [.int 1, .str "x y"])]))
        = canonicalize (.obj [("b", .str "hi there"), ("a", .arr [.int 1, .str "x y"])]) := by
  have hok : strsOk (.obj [("b", .str "hi there"), ("a", .arr [.int 1, .str "x y"])]) = true := by
    simp [strsOk, strsOkFields, strsOkList,
      show goodStrB "hi there" = true from by decide,
      show goodStrB "x y" = true from by decide]
  exact ⟨hok, c4_idempotent _ hok⟩

/-! ### Claim theorems: numeric opcode choice -/

/-- C2 counterexample: the float 2147483647.0 (bit pattern
0x41DFFFFFFFC00000) has zero fract and value exactly 2147483647, inside
the signed 32-bit range the claim names, yet the encoder emits FLOAT64
(0x06), not INT32 (0x05): the code requires the magnitude to be strictly
below i32::MAX for the re-classification. -/
theorem c2_counterexample :
    f64FractZero 0x41DFFFFFFFC00000 = true ∧
      f64TruncInt 0x41DFFFFFFFC00000 = 2147483647 ∧
      -(2 ^ 31) ≤ f64TruncInt 0x41DFFFFFFFC00000 ∧
      f64TruncInt 0x41DFFFFFFFC00000 ≤ 2 ^ 31 - 1 ∧
      (encodeValue [] (.float 0x41DFFFFFFFC00000)).2.head? = some 0x06 ∧
      (0x06 : Nat) ≠ 0x05 := by
  refine ⟨by decide, by decide, by decide, by decide, ?_, by decide⟩
  rw [encodeValue]
  rw [show (f64FractZero 0x41DFFFFFFFC00000 &&
      f64AbsLt 0x41DFFFFFFFC00000 2147483647) = false from by decide]
  simp

/-- C2 amended: the opcode of a number node.  An integer in [-128, 127] is
INT8, any other integer within the signed 32-bit range (both ends
included) is INT32, every other integer FLOAT64; a float whose fract is
zero and whose magnitude is strictly below 2147483647 is re-classified
through its integer value (INT8 in [-128, 127], else INT32), every other
float is FLOAT64. -/
theorem c2_opcode_choice (st : List String) (i : Int) (b : Nat) :
    (encodeValue st (.int i)).2.head? =
      some (if -128 ≤ i ∧ i ≤ 127 then 0x03
        else if -(2 ^ 31) ≤ i ∧ i ≤ 2 ^ 31 - 1 then 0x05 else 0x06) ∧
    (encodeValue st (.float b)).2.head? =
      some (if (f64FractZero b && f64AbsLt b 2147483647) = true then
          (if -128 ≤ f64TruncInt b ∧ f64TruncInt b ≤ 127 then 0x03 else 0x05)
        else 0x06) := by
  constructor
  · rw [encodeValue]
    by_cases h1 : -128 ≤ i ∧ i ≤ 127
    · rw [if_pos h1, if_pos h1]; rfl
    · rw [if_neg h1, if_neg h1]
      by_cases h2 : -(2 ^ 31) ≤ i ∧ i ≤ 2 ^ 31 - 1
      · rw [if_pos h2, if_pos h2]; rfl
      · rw [if_neg h2, if_neg h2]; rfl
  · rw [encodeValue]
    by_cases h1 : (f64FractZero b && f64AbsLt b 2147483647) = true
    · rw [if_pos h1, if_pos h1]
      by_cases h2 : -128 ≤ f64TruncInt b ∧ f64TruncInt b ≤ 127
      · rw [if_pos h2, if_pos h2]; rfl
      · rw [if_neg h2, if_neg h2]; rfl
    · rw [if_neg h1, if_neg h1]; rfl

/-! ### Unique-keys invariant of decoded values -/

/-- No key occurs twice. -/
def nodupKeysB : List String → Bool
  | [] => true
  | k :: ks => decide (¬ k ∈ ks) && nodupKeysB ks

mutual
/-- Every object anywhere in the value has pairwise-distinct keys. -/
def uniqB : JVal → Bool
  | .arr es => uniqList es
  | .obj fs => nodupKeysB (keysOf fs) && uniqFields fs
  | _ => true
/-- uniqB over array elements. -/
def uniqList : List JVal → Bool
  | [] => true
  | v :: vs => uniqB v && uniqList vs
/-- uniqB over object field values. -/
def uniqFields : List (String × JVal) → Bool
  | [] => true
  | (_, v) :: fs => uniqB v && uniqFields fs
end

theorem uniqList_iff {es : List JVal} :
    uniqList es = true ↔ ∀ v ∈ es, uniqB v = true := by
  induction es with
  | nil => simp [uniqList]
  | cons v vs ih =>
    rw [uniqList, Bool.and_eq_true, ih]
    constructor
    · rintro ⟨h1, h2⟩ x hx
      rcases List.mem_cons.mp hx with h3 | h3
      · rw [h3]; exact h1
      · exact h2 x h3
    · intro h
      exact ⟨h v (by simp), fun x hx => h x (by simp [hx])⟩

theorem uniqFields_iff {fs : List (String × JVal)} :
    uniqFields fs = true ↔ ∀ kv ∈ fs, uniqB kv.2 = true := by
  induction fs with
  | nil => simp [uniqFields]
  | cons kv rest ih =>
    obtain ⟨k, v⟩ := kv
    rw [uniqFields, Bool.and_eq_true, ih]
    constructor
    · rintro ⟨h1, h2⟩ x hx
      rcases List.mem_cons.mp hx with h3 | h3
      · rw [h3]; exact h1
      · exact h2 x h3
    · intro h
      exact ⟨h (k, v) (by simp), fun x hx => h x (by simp [hx])⟩

theorem mem_keysOf {q : String} {l : List (String × JVal)} :
    q ∈ keysOf l ↔ ∃ w, (q, w) ∈ l := by
  rw [keysOf, List.mem_map]
  constructor
  · rintro ⟨⟨k, w⟩, hk, rfl⟩
    exact ⟨w, hk⟩
  · rintro ⟨w, hw⟩
    exact ⟨(q, w), hw, rfl⟩

theorem nodupKeysB_mapInsert {k : String} {v : JVal} {m : List (String × JVal)}
    (h : nodupKeysB (keysOf m) = true) :
    nodupKeysB (keysOf (mapInsert k v m)) = true := by
  induction m with
  | nil => simp [mapInsert, keysOf, nodupKeysB]
  | cons p rest ih =>
    obtain ⟨k1, w⟩ := p
    rw [show keysOf ((k1, w) :: rest) = k1 :: keysOf rest from rfl] at h
    rw [nodupKeysB, Bool.and_eq_true] at h
    by_cases hk : k = k1
    · subst hk
      simp only [mapInsert, if_true, eq_self_iff_true]
      rw [show keysOf ((k, v) :: rest) = k :: keysOf rest from rfl]
      rw [nodupKeysB, Bool.and_eq_true]
      exact h
    · simp only [mapInsert, if_neg hk]
      rw [show keysOf ((k1, w) :: mapInsert k v rest)
          = k1 :: keysOf (mapInsert k v rest) from rfl]
      rw [nodupKeysB, Bool.and_eq_true]
      refine ⟨?_, ih h.2⟩
      rw [decide_eq_true_iff]
      intro hmem
      rcases mem_keysOf.mp hmem with ⟨w2, hw2⟩
      rcases mem_mapInsert hw2 with h2 | h2
      · exact hk ((congrArg Prod.fst h2).symm)
      · have : k1 ∈ keysOf rest := mem_keysOf.mpr ⟨w2, h2⟩
        exact absurd this (by simpa using h.1)

theorem uniqFields_mapInsert {k : String} {v : JVal} {m : List (String × JVal)}
    (hv : uniqB v = true) (h : uniqFields m = true) :
    uniqFields (mapInsert k v m) = true := by
  rw [uniqFields_iff]
  intro kv hkv
  rcases mem_mapInsert hkv with h2 | h2
  · rw [h2]; exact hv
  · exact uniqFields_iff.mp h kv h2

end Tens

/-! ### Decoded objects always have unique keys (C10) -/

namespace Tens

theorem uniqB_f64ToJson (b : Nat) : uniqB (f64ToJson b) = true := by
  rw [f64ToJson]; split <;> simp [uniqB]

set_option maxHeartbeats 1000000 in
/-- Any value produced by a successful decodeValue satisfies the nested
unique-keys invariant, because object fields are accumulated with
mapInsert (replace-in-place), never by blind append. -/
theorem decode_value_uniq (dict : List String) :
    ∀ bs v n, decodeValue dict bs = .ok (v, n) → uniqB v = true := by
  have H := decodeValue.induct dict
    (fun bs => ∀ v n, decodeValue dict bs = .ok (v, n) → uniqB v = true)
    (fun count bs m => nodupKeysB (keysOf m) = true → uniqFields m = true →
      ∀ fs n, decodeFieldsD dict count bs m = .ok (fs, n) →
        nodupKeysB (keysOf fs) = true ∧ uniqFields fs = true)
    (fun count bs => ∀ vs n, decodeElems dict count bs = .ok (vs, n) →
      ∀ v ∈ vs, uniqB v = true)
  apply H
  next => intro v n h; simp [decodeValue] at h
  next =>
    intro bs v n h; simp [decodeValue] at h
    obtain ⟨h1, h2⟩ := h; subst h1; simp [uniqB]
  next =>
    intro bs v n h; simp [decodeValue] at h
    obtain ⟨h1, h2⟩ := h; subst h1; simp [uniqB]
  next =>
    intro bs v n h; simp [decodeValue] at h
    obtain ⟨h1, h2⟩ := h; subst h1; simp [uniqB]
  next => intro v n h; simp [decodeValue] at h
  next =>
    intro b bs v n h; simp [decodeValue] at h
    obtain ⟨h1, h2⟩ := h; subst h1; simp [uniqB]
  next =>
    intro bs hlen v n h; simp [decodeValue, hlen] at h
    obtain ⟨h1, h2⟩ := h; subst h1; simp [uniqB]
  next => intro bs hlen v n h; simp [decodeValue, hlen] at h
  next =>
    intro bs hlen v n h
    simp [decodeValue, hlen] at h
    obtain ⟨h1, h2⟩ := h; subst h1; exact uniqB_f64ToJson _
  next => intro bs hlen v n h; simp [decodeValue, hlen] at h
  next =>
    intro bs r hr v n h
    have hr2 : (decodeVarint bs).1 < dict.length := hr
    simp [decodeValue, hr2] at h
    obtain ⟨h1, h2⟩ := h; subst h1; simp [uniqB]
  next =>
    intro bs r hr v n h
    have hr2 : ¬ (decodeVarint bs).1 < dict.length := hr
    simp [decodeValue, hr2] at h
  next =>
    intro bs r e herr _ v n h
    have h2 : decodeElems dict (decodeVarint bs).1
        (List.drop (decodeVarint bs).2 bs) = .error e := herr
    simp [decodeValue, h2] at h
  next =>
    intro bs r vs n2 hok ih v n h
    have h2 : decodeElems dict (decodeVarint bs).1
        (List.drop (decodeVarint bs).2 bs) = .ok (vs, n2) := hok
    simp [decodeValue, h2] at h
    obtain ⟨h1, h3⟩ := h; subst h1
    rw [show uniqB (JVal.arr vs) = uniqList vs from by simp [uniqB]]
    exact uniqList_iff.mpr (ih vs n2 hok)
  next =>
    intro bs r e herr _ v n h
    have h2 : decodeFieldsD dict (decodeVarint bs).1
        (List.drop (decodeVarint bs).2 bs) [] = .error e := herr
    simp [decodeValue, h2] at h
  next =>
    intro bs r fs n2 hok ih v n h
    have h2 : decodeFieldsD dict (decodeVarint bs).1
        (List.drop (decodeVarint bs).2 bs) [] = .ok (fs, n2) := hok
    simp [decodeValue, h2] at h
    obtain ⟨h1, h3⟩ := h; subst h1
    have := ih (by simp [keysOf, nodupKeysB]) (by simp [uniqFields]) fs n2 hok
    simp [uniqB, this.1, this.2]
  next =>
    intro b bs h0 h1 h2 h3 h5 h6 h7 h8 h9 v n h
    rw [decodeValue.eq_def] at h
    split at h
    · simp at h
    · rename_i b2 bs2 heq
      injection heq with hb hbs
      subst hb; subst hbs
      split at h <;> first | omega | exact absurd rfl (by assumption) | simp at h
  next =>
    intro x m hn hu fs n h
    simp [decodeFieldsD] at h
    obtain ⟨h1, h2⟩ := h; subst h1
    exact ⟨hn, hu⟩
  next =>
    intro count bs m rk hk e herr ih1 hn hu fs n h
    have hk2 : (decodeVarint bs).1 < dict.length := hk
    have he2 : decodeValue dict (List.drop (decodeVarint bs).2 bs) = .error e := herr
    simp [decodeFieldsD, hk2, he2] at h
  next =>
    intro count bs m rk hk v n1 hv e herr ih1 ih2 hn hu fs n h
    have hk2 : (decodeVarint bs).1 < dict.length := hk
    have hv2 : decodeValue dict (List.drop (decodeVarint bs).2 bs) = .ok (v, n1) := hv
    have he2 : decodeFieldsD dict count
        (List.drop ((decodeVarint bs).2 + n1) bs)
        (mapInsert dict[(decodeVarint bs).1] v m) = .error e := herr
    simp [decodeFieldsD, hk2, hv2, he2] at h
  next =>
    intro count bs m rk hk v n1 hv fs2 n2 hok ih1 ih2 hn hu fs n h
    have hk2 : (decodeVarint bs).1 < dict.length := hk
    have hv2 : decodeValue dict (List.drop (decodeVarint bs).2 bs) = .ok (v, n1) := hv
    have ho2 : decodeFieldsD dict count
        (List.drop ((decodeVarint bs).2 + n1) bs)
        (mapInsert dict[(decodeVarint bs).1] v m) = .ok (fs2, n2) := hok
    simp [decodeFieldsD, hk2, hv2, ho2] at h
    obtain ⟨h1, h2⟩ := h; subst h1
    have hvu : uniqB v = true := ih1 v n1 hv2
    exact ih2 (nodupKeysB_mapInsert hn) (uniqFields_mapInsert hvu hu) fs2 n2 hok
  next =>
    intro count bs m rk hk hn hu fs n h
    have hk2 : ¬ (decodeVarint bs).1 < dict.length := hk
    simp [decodeFieldsD, hk2] at h
  next =>
    intro x vs n h
    simp [decodeElems] at h
    obtain ⟨h1, h2⟩ := h; subst h1
    simp
  next =>
    intro count bs e herr _ vs n h
    simp [decodeElems, herr] at h
  next =>
    intro count bs v n1 hv e herr ih1 _ vs n h
    simp [decodeElems, hv, herr] at h
  next =>
    intro count bs v n1 hv vs2 n2 hok ih1 ih3 vs n h
    simp [decodeElems, hv, hok] at h
    obtain ⟨h1, h2⟩ := h; subst h1
    intro x hx
    rcases List.mem_cons.mp hx with h2 | h2
    · rw [h2]; exact ih1 v n1 hv
    · exact ih3 vs2 n2 hok x h2

/-- Concrete evaluation: the value tree 09 02 | 00 03 01 | 00 03 02 is an
object of two fields that share key id 0; the decoder returns the single
field ("a", 2), keeping the later value. -/
theorem dv_eval_dup_key :
    decodeValue ["a"] [9, 2, 0, 3, 1, 0, 3, 2] = .ok (.obj [("a", JVal.int 2)], 8) := by
  have hv1 : decodeVarint [2, 0, 3, 1, 0, 3, 2] = (2, 1) := by decide
  have h : decodeFieldsD ["a"] 2 [0, 3, 1, 0, 3, 2] [] = .ok ([("a", JVal.int 2)], 6) := by
    rw [show (2 : Nat) = 1 + 1 from rfl]
    simp [decodeFieldsD, decodeValue, decodeVarint, decodeVarintAux, i8Val, mapInsert]
  simp [decodeValue, hv1, h]

theorem dt_eval_dup_key :
    decodeTop [0x54, 0x45, 0x4E, 0x53, 0x02, 1, 1, 0x61, 0x09, 2, 0, 3, 1, 0, 3, 2]
      = .ok (JVal.obj [("a", JVal.int 2)]) := by
  have h2 : decodeTop [0x54, 0x45, 0x4E, 0x53, 0x02, 1, 1, 0x61, 0x09, 2, 0, 3, 1, 0, 3, 2]
      = (match decodeValue ["a"] [9, 2, 0, 3, 1, 0, 3, 2] with
        | Except.error e => Except.error e
        | Except.ok (v, _) => Except.ok v) := rfl
  rw [h2, dv_eval_dup_key]

/-- C10: decoding an OBJECT_START node accumulates fields with mapInsert,
so a repeated key id makes the later field's value overwrite the earlier
one (last-write-wins, first conjunct: a double insert of the same key
looks up to the second value), every successfully decoded value satisfies
the unique-keys invariant (second conjunct), and on the concrete 16-byte
input whose object body lists key id 0 twice with values 1 then 2 the
decoder returns the single field ("a", 2) (third conjunct). -/
theorem c10_decode_unique_keys :
    (∀ k v1 v2 (m : List (String × JVal)) q,
      assocLookup (mapInsert k v2 (mapInsert k v1 m)) q
        = if q = k then some v2 else assocLookup m q) ∧
    (∀ bytes v, decodeTop bytes = .ok v → uniqB v = true) ∧
    decodeTop [0x54, 0x45, 0x4E, 0x53, 0x02, 1, 1, 0x61, 0x09, 2, 0, 3, 1, 0, 3, 2]
      = .ok (JVal.obj [("a", JVal.int 2)]) := by
  refine ⟨?_, ?_, dt_eval_dup_key⟩
  · intro k v1 v2 m q
    rw [assocLookup_mapInsert, assocLookup_mapInsert]
    by_cases hq : q = k <;> simp [hq]
  · intro bytes v h
    simp only [decodeTop] at h
    split at h
    · simp at h
    · split at h
      · simp at h
      · split at h
        · simp at h
        · split at h
          · simp at h
          · split at h
            · simp at h
            · rename_i v2 n2 heq2
              cases h
              exact decode_value_uniq _ _ _ _ heq2

/-- Witness for c10_decode_unique_keys: its unique-keys invariant applied
to the concrete duplicate-key input of its third conjunct. -/
theorem c10_decode_unique_keys_witness :
    uniqB (JVal.obj [("a", JVal.int 2)]) = true :=
  c10_decode_unique_keys.2.1
    [0x54, 0x45, 0x4E, 0x53, 0x02, 1, 1, 0x61, 0x09, 2, 0, 3, 1, 0, 3, 2]
    (JVal.obj [("a", JVal.int 2)]) dt_eval_dup_key

end Tens

/-! ### Binary decode panics (C5) and text decode panics (C9) -/

namespace Tens

/-- C5: binary decoding does panic on some inputs.  On the 11-byte input
whose single dictionary entry declares length 0xFFFFFFFF, the wasm32
decoder (32-bit usize, release profile) wraps the end-of-entry position
below the current position and the slice bytes[pos..end] panics — the
model returns none (first conjunct) — while the same bytes on a 64-bit
target return the typed length error the spec describes (second
conjunct); and under the debug profile decode_varint's shift reaches 35
on a 6-byte varint and the u32 shift overflow panics, modelled as none
(third conjunct), where the release build wraps and consumes all 6 bytes
(fourth conjunct). -/
theorem c5_decode_panics :
    decodeTop32 [0x54, 0x45, 0x4E, 0x53, 0x02, 1, 0xFF, 0xFF, 0xFF, 0xFF, 0x0F] = none ∧
    decodeTop [0x54, 0x45, 0x4E, 0x53, 0x02, 1, 0xFF, 0xFF, 0xFF, 0xFF, 0x0F]
      = .error "Dictionary string extends past end of input" ∧
    decodeVarintChk [0xFF, 0xFF, 0xFF, 0xFF, 0xFF, 0x01] 0 0 = none ∧
    decodeVarint [0xFF, 0xFF, 0xFF, 0xFF, 0xFF, 0x01] = (4294967295, 6) :=
  ⟨rfl, rfl, rfl, rfl⟩

/-- C9: decode_tens_text is not total.  A record line whose field value is
the single character double-quote takes the quoted-string branch and
evaluates s[1..s.len()-1] = s[1..0], an out-of-bounds slice that panics —
the model returns none on that input (second conjunct) — so decoding does
not succeed on every input string; the version-only document does decode
to the empty array as claimed (first conjunct). -/
theorem c9_decode_text_panics :
    decodeTensText "@version 1\n" = some (.ok (JVal.arr [])) ∧
    decodeTensText "@schema d x:str\nd\n  x \"" = none :=
  ⟨rfl, rfl⟩

end Tens

/-! ### When TENS-Text encoding fails (C8) -/

namespace Tens

/-- C8 counterexample: the array [1] canonicalizes to an array, yet
encode_tens_text fails on it — its error test is not the claimed
"neither array nor object" shape test but "first record not an object". -/
theorem c8_counterexample :
    encodeTensText (JVal.arr [JVal.int 1]) none = .error "Records must be objects" ∧
    canonicalize (JVal.arr [JVal.int 1]) = .arr [JVal.int 1] := by
  constructor
  · simp [encodeTensText, canonicalize, canonList, encodeTensTextRecords]
  · simp [canonicalize, canonList]

/-- C8 amended: encode_tens_text succeeds exactly when the canonical value
is an empty array, an array whose first element is an object, or an object
(first conjunct: arrays headed by a non-object fail too, arrays with
non-object elements after an object head do succeed); when the canonical
value is the empty array the output is exactly the version line (second
conjunct). -/
theorem c8_text_encode_characterization :
    (∀ v enc, (encodeTensText v enc).isOk =
      (match canonicalize v with
        | .arr [] => true
        | .arr (JVal.obj _ :: _) => true
        | .obj _ => true
        | _ => false)) ∧
    (∀ v enc, canonicalize v = .arr [] → encodeTensText v enc = .ok "@version 1\n") := by
  constructor
  · intro v enc
    rcases hc : canonicalize v with _ | b | i | bb | s | es | fs
    · simp [encodeTensText, hc, Except.isOk, Except.toBool]
    · simp [encodeTensText, hc, Except.isOk, Except.toBool]
    · simp [encodeTensText, hc, Except.isOk, Except.toBool]
    · simp [encodeTensText, hc, Except.isOk, Except.toBool]
    · simp [encodeTensText, hc, Except.isOk, Except.toBool]
    · rcases es with _ | ⟨r, rs⟩
      · simp [encodeTensText, hc, encodeTensTextRecords, Except.isOk, Except.toBool]
      · rcases r with _ | b | i | bb | s | es2 | fs2 <;>
          simp [encodeTensText, hc, encodeTensTextRecords, Except.isOk, Except.toBool]
    · simp [encodeTensText, hc, encodeTensTextRecords, Except.isOk, Except.toBool]
  · intro v enc h
    simp [encodeTensText, h, encodeTensTextRecords]

/-- Witness for c8_text_encode_characterization: its empty-array conjunct
applied at the literal empty array. -/
theorem c8_text_encode_witness :
    encodeTensText (JVal.arr []) none = .ok "@version 1\n" :=
  c8_text_encode_characterization.2 (JVal.arr []) none (by simp [canonicalize, canonList])

end Tens

/-! ### Dictionary deduplication and the scan/emit table discipline (C7) -/

namespace Tens

theorem addKeys_append (st : List String) (l1 l2 : List String) :
    addKeys st (l1 ++ l2) = addKeys (addKeys st l1) l2 := by
  induction l1 generalizing st with
  | nil => simp [addKeys]
  | cons k ks ih => simp [addKeys, ih]

/-- The scan pass is exactly StringTable::add folded over the depth-first
string sequence of the value (keys of an object, sorted, before any of
its values). -/
theorem scan_eq_addKeys_dfs (st : List String) (v : JVal) :
    scanStrings st v = addKeys st (dfsStrings v) := by
  refine scanStrings.induct
    (fun st v => scanStrings st v = addKeys st (dfsStrings v))
    (fun st fs ks => scanVals st fs ks = addKeys st (dfsVals fs ks))
    (fun st es => scanList st es = addKeys st (dfsList es))
    ?_ ?_ ?_ ?_ ?_ ?_ ?_ ?_ ?_ st v
  · intro st s
    simp [scanStrings, dfsStrings, addKeys]
  · intro st es ih
    simp [scanStrings, dfsStrings, ih]
  · intro st fs ih
    simp [scanStrings, dfsStrings, addKeys_append, ih]
  · intro st v h1 h2 h3
    rcases v with _ | b | i | bb | s | es | fs
    · simp [scanStrings, dfsStrings, addKeys]
    · simp [scanStrings, dfsStrings, addKeys]
    · simp [scanStrings, dfsStrings, addKeys]
    · simp [scanStrings, dfsStrings, addKeys]
    · exact absurd rfl (h1 s)
    · exact absurd rfl (h2 es)
    · exact absurd rfl (h3 fs)
  · intro st fs
    simp [scanVals, dfsVals, addKeys]
  · intro st fs k ks v h ih1 ih2
    simp only [scanVals, dfsVals, addKeys_append]
    split
    · rename_i v2 heq
      rw [h] at heq
      injection heq with hv
      subst hv
      rw [← ih1]
      exact ih2
    · rename_i heq
      rw [h] at heq
      exact absurd heq (by simp)
  · intro st fs k ks h ih
    simp only [scanVals, dfsVals, addKeys_append]
    split
    · rename_i v2 heq
      rw [h] at heq
      exact absurd heq (by simp)
    · rw [show addKeys st [] = st from rfl]
      exact ih
  · intro st
    simp [scanList, dfsList, addKeys]
  · intro st v vs ih1 ih2
    simp only [scanList, dfsList, addKeys_append]
    rw [← ih1]
    exact ih2

theorem mem_stAdd (st : List String) (s x : String) :
    x ∈ (stAdd st s).2 ↔ x ∈ st ∨ x = s := by
  by_cases h : s ∈ st
  · simp only [stAdd, if_pos h]
    constructor
    · exact fun hx => Or.inl hx
    · rintro (hx | rfl)
      · exact hx
      · exact h
  · simp [stAdd, h]

theorem nodup_stAdd (st : List String) (s : String) (h : st.Nodup) :
    (stAdd st s).2.Nodup := by
  by_cases hm : s ∈ st
  · simpa [stAdd, hm] using h
  · simp [stAdd, hm, List.nodup_append, h]

theorem stAdd_mem (st : List String) (s : String) (h : s ∈ st) :
    (stAdd st s).2 = st := by
  simp [stAdd, h]

theorem mem_addKeys (st l : List String) (x : String) :
    x ∈ addKeys st l ↔ x ∈ st ∨ x ∈ l := by
  induction l generalizing st with
  | nil => simp [addKeys]
  | cons k ks ih =>
    simp [addKeys, ih, mem_stAdd]
    constructor
    · rintro ((h | h) | h)
      · exact Or.inl h
      · exact Or.inr (Or.inl h)
      · exact Or.inr (Or.inr h)
    · rintro (h | h | h)
      · exact Or.inl (Or.inl h)
      · exact Or.inl (Or.inr h)
      · exact Or.inr h

theorem nodup_addKeys (st l : List String) (h : st.Nodup) :
    (addKeys st l).Nodup := by
  induction l generalizing st with
  | nil => simpa [addKeys]
  | cons k ks ih => exact ih _ (nodup_stAdd _ _ h)

/-- The emit pass allocates no new id: on a table already holding every
string of the value, encode_value returns the table unchanged. -/
theorem emit_no_alloc (st : List String) (v : JVal)
    (hsub : ∀ x ∈ dfsStrings v, x ∈ st) : (encodeValue st v).1 = st := by
  refine encodeValue.induct
    (fun st v => (∀ x ∈ dfsStrings v, x ∈ st) → (encodeValue st v).1 = st)
    (fun st fs ks => (∀ x ∈ ks, x ∈ st) → (∀ x ∈ dfsVals fs ks, x ∈ st) →
      (encodeFields st fs ks).1 = st)
    (fun st es => (∀ x ∈ dfsList es, x ∈ st) → (encodeList st es).1 = st)
    ?_ ?_ ?_ ?_ ?_ ?_ ?_ ?_ ?_ ?_ ?_ ?_ ?_ ?_ ?_ ?_ st v hsub
  · intro st _; simp [encodeValue]
  · intro st b _; simp [encodeValue]
  · intro st i h _; simp [encodeValue, h]
  · intro st i h1 h2 _
    simp only [encodeValue, if_neg h1]
    rw [if_pos h2]
  · intro st i h1 h2 _
    simp only [encodeValue, if_neg h1]
    rw [if_neg h2]
  · intro st b h i hi _; simp [encodeValue, h, hi]
  · intro st b h i hi _; simp [encodeValue, h, hi]
  · intro st b h _; simp [encodeValue, h]
  · intro st s hs
    have : s ∈ st := hs s (by simp [dfsStrings])
    simp [encodeValue, stAdd, this]
  · intro st es ih hs
    have := ih (fun x hx => hs x (by simpa [dfsStrings] using hx))
    simp [encodeValue, this]
  · intro st fs ks ih hs
    have h1 : ∀ x ∈ sortStrings (keysOf fs), x ∈ st := fun x hx =>
      hs x (by simp [dfsStrings]; exact Or.inl hx)
    have h2 : ∀ x ∈ dfsVals fs (sortStrings (keysOf fs)), x ∈ st := fun x hx =>
      hs x (by simp [dfsStrings]; exact Or.inr hx)
    have := ih h1 h2
    simp [encodeValue, this]
  · intro st fs _ _; simp [encodeFields]
  · intro st fs k ks ra v h rv ih1 ih2 ih3 hks hvals
    have ih2x : (∀ x ∈ dfsStrings v, x ∈ (stAdd st k).2) →
        (encodeValue (stAdd st k).2 v).1 = (stAdd st k).2 := ih2
    have ih3x : (∀ x ∈ ks, x ∈ (encodeValue (stAdd st k).2 v).1) →
        (∀ x ∈ dfsVals fs ks, x ∈ (encodeValue (stAdd st k).2 v).1) →
        (encodeFields (encodeValue (stAdd st k).2 v).1 fs ks).1
          = (encodeValue (stAdd st k).2 v).1 := ih3
    have hk : k ∈ st := hks k (by simp)
    have hra : (stAdd st k).2 = st := stAdd_mem st k hk
    have hdv : ∀ x ∈ dfsStrings v, x ∈ st := by
      intro x hx
      refine hvals x ?_
      simp only [dfsVals]
      rw [List.mem_append]
      left
      split
      · rename_i v2 heq
        rw [h] at heq
        injection heq with hv2
        subst hv2
        exact hx
      · rename_i heq
        rw [h] at heq
        exact absurd heq (by simp)
    have hv : (encodeValue (stAdd st k).2 v).1 = st :=
      (ih2x (by rw [hra]; exact hdv)).trans hra
    have hrest := ih3x
      (by rw [hv]; exact fun x hx => hks x (List.mem_cons_of_mem _ hx))
      (by
        rw [hv]
        intro x hx
        refine hvals x ?_
        simp only [dfsVals]
        rw [List.mem_append]
        right
        exact hx)
    simp only [encodeFields]
    split
    · rename_i v2 heq
      rw [h] at heq
      injection heq with hv2
      subst hv2
      rw [hrest, hv]
    · rename_i heq
      rw [h] at heq
      exact absurd heq (by simp)
  · intro st fs k ks ra h ih hks hvals
    have ihx : (∀ x ∈ ks, x ∈ (stAdd st k).2) → (∀ x ∈ dfsVals fs ks, x ∈ (stAdd st k).2) →
        (encodeFields (stAdd st k).2 fs ks).1 = (stAdd st k).2 := ih
    have hk : k ∈ st := hks k (by simp)
    have hra : (stAdd st k).2 = st := stAdd_mem st k hk
    have hrest := ihx
      (by rw [hra]; exact fun x hx => hks x (List.mem_cons_of_mem _ hx))
      (by
        rw [hra]
        intro x hx
        refine hvals x ?_
        simp only [dfsVals]
        rw [List.mem_append]
        right
        exact hx)
    simp only [encodeFields]
    split
    · rename_i v2 heq
      rw [h] at heq
      exact absurd heq (by simp)
    · rw [hrest, hra]
  · intro st _; simp [encodeList]
  · intro st v vs rv ih1 ih3 hs
    have ih3x : (∀ x ∈ dfsList vs, x ∈ (encodeValue st v).1) →
        (encodeList (encodeValue st v).1 vs).1 = (encodeValue st v).1 := ih3
    have hv : (encodeValue st v).1 = st := ih1 (fun x hx =>
      hs x (by simp [dfsList]; exact Or.inl hx))
    have hrest := ih3x (by
      rw [hv]
      intro x hx
      exact hs x (by simp [dfsList]; exact Or.inr hx))
    simp only [encodeList]
    rw [hrest, hv]

/-- C7: the scan pass is StringTable::add folded over the depth-first
string sequence — ids in first-seen order, an object's sorted keys
registered before any of its values (first conjunct); the resulting
dictionary has no duplicate entry (second conjunct) and holds exactly the
value's strings (third conjunct), so a string occurring K >= 1 times in
the value occurs exactly once in the dictionary (fourth conjunct); and on
that table the emit pass allocates no new id, returning the table
unchanged (fifth conjunct). -/
theorem c7_dictionary_dedup :
    (∀ st v, scanStrings st v = addKeys st (dfsStrings v)) ∧
    (∀ v, (scanStrings [] v).Nodup) ∧
    (∀ v s, s ∈ scanStrings [] v ↔ s ∈ dfsStrings v) ∧
    (∀ v s, s ∈ dfsStrings v → (scanStrings [] v).count s = 1) ∧
    (∀ v, (encodeValue (scanStrings [] v) v).1 = scanStrings [] v) := by
  have h2 : ∀ v, (scanStrings [] v).Nodup := fun v => by
    rw [scan_eq_addKeys_dfs]; exact nodup_addKeys _ _ (by simp)
  have h3 : ∀ v s, s ∈ scanStrings [] v ↔ s ∈ dfsStrings v := fun v s => by
    rw [scan_eq_addKeys_dfs, mem_addKeys]; simp
  refine ⟨scan_eq_addKeys_dfs, h2, h3, ?_, ?_⟩
  · intro v s hs
    have hm : s ∈ scanStrings [] v := (h3 v s).mpr hs
    have hle := List.nodup_iff_count_le_one.mp (h2 v) s
    have hpos : 0 < (scanStrings [] v).count s := List.count_pos_iff.mpr hm
    omega
  · intro v
    exact emit_no_alloc _ _ (fun x hx => (h3 v x).mpr hx)

/-- Witness for c7_dictionary_dedup: its dedup conjunct at a value holding
the string x twice — one dictionary entry. -/
theorem c7_dictionary_dedup_witness :
    (scanStrings [] (JVal.arr [JVal.str "x", JVal.str "x"])).count "x" = 1 :=
  c7_dictionary_dedup.2.2.2.1 (JVal.arr [JVal.str "x", JVal.str "x"]) "x"
    (by simp [dfsStrings, dfsList])

end Tens

/-! ### Determinism and key-order invariance of encoding (C6) -/

namespace Tens

/-- Folding fresh-keyed pairs into a map appends them in order. -/
theorem foldInsert_fresh {ps m : List (String × JVal)}
    (hcross : ∀ a ∈ m, ∀ p ∈ ps, a.1 ≠ p.1) (hnd : (keysOf ps).Nodup) :
    foldInsert ps m = m ++ ps := by
  induction ps generalizing m with
  | nil => simp [foldInsert]
  | cons p rest ih =>
    obtain ⟨k, v⟩ := p
    rw [foldInsert]
    rw [mapInsert_notMem (fun a ha => hcross a ha (k, v) (by simp))]
    have hk : k ∉ keysOf rest := by
      simp only [keysOf, List.map_cons, List.nodup_cons] at hnd
      exact hnd.1
    rw [ih (m := m ++ [(k, v)]) ?_ ?_]
    · simp
    · intro a ha q hq
      rcases List.mem_append.mp ha with h2 | h2
      · exact hcross a h2 q (by simp [hq])
      · have ha2 : a = (k, v) := by simpa using h2
        rw [ha2]
        intro he
        have hk2 : k = q.1 := he
        rw [hk2] at hk
        exact hk (List.mem_map_of_mem Prod.fst hq)
    · simp only [keysOf, List.map_cons, List.nodup_cons] at hnd
      exact hnd.2

/-- Two strictly key-sorted field lists with the same members are equal. -/
theorem strictExt {fs gs : List (String × JVal)}
    (h1 : keyStrict fs) (h2 : keyStrict gs) (hm : ∀ a, a ∈ fs ↔ a ∈ gs) :
    fs = gs := by
  induction fs generalizing gs with
  | nil =>
    cases gs with
    | nil => rfl
    | cons g gs2 => exact absurd ((hm g).mpr (by simp)) (by simp)
  | cons f fs2 ih =>
    cases gs with
    | nil => exact absurd ((hm f).mp (by simp)) (by simp)
    | cons g gs2 =>
      rw [keyStrict, List.pairwise_cons] at h1 h2
      have hfg : f = g := by
        have hf : f ∈ g :: gs2 := (hm f).mp (by simp)
        have hg : g ∈ f :: fs2 := (hm g).mpr (by simp)
        rcases List.mem_cons.mp hf with he | hf2
        · exact he
        · rcases List.mem_cons.mp hg with he | hg2
          · exact he.symm
          · have c1 := h1.1 g hg2
            have c2 := h2.1 f hf2
            exact absurd (strLeB_antisymm c1.1 c2.1) c1.2
      subst hfg
      have hiff : ∀ a, a ∈ fs2 ↔ a ∈ gs2 := by
        intro a
        constructor
        · intro ha
          rcases List.mem_cons.mp ((hm a).mp (by simp [ha])) with he | h3
          · exact absurd (congrArg Prod.fst he) (fun hk => (h1.1 a ha).2 hk.symm)
          · exact h3
        · intro ha
          rcases List.mem_cons.mp ((hm a).mpr (by simp [ha])) with he | h3
          · exact absurd (congrArg Prod.fst he) (fun hk => (h2.1 a ha).2 hk.symm)
          · exact h3
      rw [ih h1.2 h2.2 hiff]

theorem keysOf_canonFields (l : List (String × JVal)) :
    keysOf (canonFields l) = keysOf l := by
  rw [canonFields_eq]
  simp [keysOf, List.map_map]

/-- Two field lists with the same pairs in different order (and no
duplicate key) canonicalize to the same object. -/
theorem canon_obj_perm {l l' : List (String × JVal)}
    (hnd : (keysOf l).Nodup) (hperm : l.Perm l') :
    canonicalize (JVal.obj l) = canonicalize (JVal.obj l') := by
  have hcf : (canonFields l).Perm (canonFields l') := by
    rw [canonFields_eq, canonFields_eq]; exact hperm.map _
  have hnd' : (keysOf l').Nodup := by
    have : (keysOf l).Perm (keysOf l') := hperm.map _
    exact this.nodup_iff.mp hnd
  have hnds : (keysOf (sortPairs (canonFields l))).Nodup := by
    have hp : (keysOf (sortPairs (canonFields l))).Perm (keysOf (canonFields l)) :=
      (List.perm_insertionSort _ _).map _
    rw [hp.nodup_iff, keysOf_canonFields]
    exact hnd
  have hnds' : (keysOf (sortPairs (canonFields l'))).Nodup := by
    have hp : (keysOf (sortPairs (canonFields l'))).Perm (keysOf (canonFields l')) :=
      (List.perm_insertionSort _ _).map _
    rw [hp.nodup_iff, keysOf_canonFields]
    exact hnd'
  have e1 : foldInsert (sortPairs (canonFields l)) [] = sortPairs (canonFields l) :=
    by simpa using foldInsert_fresh (m := []) (by simp) hnds
  have e2 : foldInsert (sortPairs (canonFields l')) [] = sortPairs (canonFields l') :=
    by simpa using foldInsert_fresh (m := []) (by simp) hnds'
  have hmem : ∀ a, a ∈ foldInsert (sortPairs (canonFields l)) [] ↔
      a ∈ foldInsert (sortPairs (canonFields l')) [] := by
    intro a
    rw [e1, e2]
    exact Iff.trans (List.Perm.mem_iff (List.perm_insertionSort _ _))
      (Iff.trans hcf.mem_iff (List.Perm.mem_iff (List.perm_insertionSort _ _)).symm)
  have hobj : foldInsert (sortPairs (canonFields l)) []
      = foldInsert (sortPairs (canonFields l')) [] :=
    strictExt (canonObj_strict l) (canonObj_strict l') hmem
  rw [canonicalize, canonicalize]
  simp only [hobj]

/-- C6: encoding is deterministic and a function of the canonical value —
the bytes of TensEncoder::encode do not depend on the encoder's prior
string table, which the encode-time reset discards (first conjunct); two
objects with the same key/value pairs in different insertion order (and
no duplicate key) encode to identical bytes (second conjunct); and the
hash depends only on the encoded bytes, so equal encodings hash equal
(third conjunct). -/
theorem c6_deterministic_encoding :
    (∀ st1 st2 v, (encodeWith st1 v).2 = (encodeWith st2 v).2) ∧
    (∀ l l' : List (String × JVal), (keysOf l).Nodup → l.Perm l' →
      encodeTop (JVal.obj l) = encodeTop (JVal.obj l')) ∧
    (∀ v1 v2, encodeTop v1 = encodeTop v2 → hashValue v1 = hashValue v2) := by
  refine ⟨fun st1 st2 v => rfl, ?_, ?_⟩
  · intro l l' hnd hperm
    have hc := canon_obj_perm hnd hperm
    simp only [encodeTop, encodeWith, hc]
  · intro v1 v2 h
    simp only [hashValue, hashTensBinary, h]

/-- Witness for c6_deterministic_encoding: its key-order-invariance
conjunct at a two-field object and its swap. -/
theorem c6_deterministic_encoding_witness :
    encodeTop (JVal.obj [("a", JVal.int 1), ("b", JVal.int 2)])
      = encodeTop (JVal.obj [("b", JVal.int 2), ("a", JVal.int 1)]) :=
  c6_deterministic_encoding.2.1 _ _ (by decide) (List.Perm.swap _ _ _)

end Tens

/-! ### Byte-level roundtrips: little-endian integers, varints, UTF-8 -/

namespace Tens
theorem leBytes_length (w n : Nat) : (leBytes w n).length = w := by
  induction w generalizing n with
  | zero => simp [leBytes]
  | succ w ih => simp [leBytes, ih]

theorem leNat_leBytes (w n : Nat) (h : n < 2 ^ (8 * w)) :
    leNat (leBytes w n) = n := by
  induction w generalizing n with
  | zero =>
    simp [leBytes, leNat]
    omega
  | succ w ih =>
    rw [leBytes, leNat]
    rw [ih (n / 256) (by
      have : 2 ^ (8 * (w + 1)) = 2 ^ (8 * w) * 256 := by ring
      omega)]
    omega

theorem or_shiftLeft_eq_add (k a b : Nat) (h : a < 2 ^ k) :
    a ||| (b <<< k) = a + b * 2 ^ k := by
  induction k generalizing a with
  | zero =>
    have ha : a = 0 := by omega
    subst ha
    simp [Nat.shiftLeft_eq]
  | succ k ih =>
    have hc2 : (b <<< (k + 1)) / 2 = b <<< k := by
      rw [Nat.shiftLeft_eq, Nat.shiftLeft_eq, Nat.pow_succ]
      rw [← Nat.mul_assoc]
      exact Nat.mul_div_cancel _ (by omega)
    have hcm : (b <<< (k + 1)) % 2 = 0 := by
      rw [Nat.shiftLeft_eq, Nat.pow_succ, ← Nat.mul_assoc]
      exact Nat.mul_mod_left _ 2
    have hdiv : (a ||| (b <<< (k + 1))) / 2 = a / 2 ||| (b <<< k) := by
      rw [Nat.or_div_two, hc2]
    have hmod : (a ||| (b <<< (k + 1))) % 2 = a % 2 := by
      rcases Nat.mod_two_eq_zero_or_one (a ||| b <<< (k + 1)) with h0 | h1
      · rcases Nat.mod_two_eq_zero_or_one a with ha0 | ha1
        · omega
        · have : (a ||| b <<< (k + 1)) % 2 = 1 :=
            Nat.or_mod_two_eq_one.mpr (Or.inl ha1)
          omega
      · have := Nat.or_mod_two_eq_one.mp h1
        rcases this with hx | hx
        · omega
        · omega
    have hih := ih (a / 2) (by
      rw [Nat.pow_succ] at h
      omega)
    have hfull := Nat.div_add_mod (a ||| (b <<< (k + 1))) 2
    rw [Nat.pow_succ, ← Nat.mul_assoc]
    omega

theorem and127 (x : Nat) : x &&& 127 = x % 128 := by
  have : (127 : Nat) = 2 ^ 7 - 1 := by norm_num
  rw [this, Nat.and_pow_two_sub_one_eq_mod]

theorem and128_lt (x : Nat) (h : x < 128) : x &&& 128 = 0 := by
  have h7 : (128 : Nat) = 2 ^ 7 := by norm_num
  rw [h7, Nat.and_two_pow]
  have : x.testBit 7 = false := Nat.testBit_lt_two_pow (by omega)
  simp [this]

theorem and128_hi (x : Nat) (h1 : 128 ≤ x) (h2 : x < 256) : x &&& 128 = 128 := by
  have h7 : (128 : Nat) = 2 ^ 7 := by norm_num
  rw [h7, Nat.and_two_pow]
  have ht : x.testBit 7 = true := by
    rw [Nat.testBit_to_div_mod]
    have hx : x / 2 ^ 7 = 1 := by
      have : (2 : Nat) ^ 7 = 128 := by norm_num
      omega
    rw [hx]
    decide
  simp [ht]

theorem decodeVarintAux_enc (v : Nat) : ∀ (rest : List Nat) (val shift : Nat),
    shift < 32 → v < 2 ^ (32 - shift) → val < 2 ^ shift →
    decodeVarintAux (encodeVarint v ++ rest) val shift
      = (val + v * 2 ^ shift, (encodeVarint v).length) := by
  induction v using Nat.strong_induction_on with
  | _ v ih =>
    intro rest val shift hs hv hval
    have hpow : 2 ^ (32 - shift) * 2 ^ shift = 2 ^ 32 := by
      rw [← Nat.pow_add]
      congr 1
      omega
    have hd1 : 1 ≤ 2 ^ shift := Nat.one_le_two_pow
    by_cases h : v < 128
    · rw [encodeVarint, dif_pos h]
      rw [List.cons_append, decodeVarintAux]
      have hm : v % 256 = v := Nat.mod_eq_of_lt (by omega)
      have hmask : v &&& 127 = v := by
        rw [and127]
        exact Nat.mod_eq_of_lt h
      have hsm : shift % 32 = shift := Nat.mod_eq_of_lt hs
      have hor : val ||| (v <<< shift) = val + v * 2 ^ shift :=
        or_shiftLeft_eq_add shift val v hval
      have hlt : val + v * 2 ^ shift < 2 ^ 32 := by
        have h1 : v * 2 ^ shift ≤ 2 ^ 32 - 2 ^ shift := by
          calc v * 2 ^ shift
              ≤ (2 ^ (32 - shift) - 1) * 2 ^ shift :=
                Nat.mul_le_mul_right _ (by omega)
            _ = 2 ^ 32 - 2 ^ shift := by
                rw [Nat.sub_mul, hpow]
                omega
        have hcle : 2 ^ shift ≤ 2 ^ 32 := Nat.pow_le_pow_right (by omega) (by omega)
        omega
      have hcont : v &&& 128 = 0 := and128_lt v h
      simp only [hm, hmask, hsm, hor, hcont]
      rw [Nat.mod_eq_of_lt hlt]
      simp
    · rw [encodeVarint, dif_neg h]
      rw [List.cons_append, decodeVarintAux]
      have hb : v % 128 + 128 < 256 := by omega
      have hm : (v % 128 + 128) % 256 = v % 128 + 128 := Nat.mod_eq_of_lt hb
      have hshift_le : shift ≤ 24 := by
        by_contra hgt
        have h8 : 32 - shift ≤ 7 := by omega
        have : 2 ^ (32 - shift) ≤ 2 ^ 7 := Nat.pow_le_pow_right (by omega) h8
        have : (2 : Nat) ^ 7 = 128 := by norm_num
        omega
      have hmask : (v % 128 + 128) &&& 127 = v % 128 := by
        rw [and127]
        omega
      have hsm : shift % 32 = shift := Nat.mod_eq_of_lt hs
      have hor : val ||| ((v % 128) <<< shift) = val + (v % 128) * 2 ^ shift :=
        or_shiftLeft_eq_add shift val (v % 128) hval
      have hps : 2 ^ (shift + 7) = 128 * 2 ^ shift := by
        rw [Nat.pow_add]
        ring
      have hlt : val + (v % 128) * 2 ^ shift < 2 ^ (shift + 7) := by
        have h1 : (v % 128) * 2 ^ shift ≤ 127 * 2 ^ shift :=
          Nat.mul_le_mul_right _ (by omega)
        omega
      have hlt32 : val + (v % 128) * 2 ^ shift < 2 ^ 32 := by
        have h1 : 2 ^ (shift + 7) ≤ 2 ^ 32 := Nat.pow_le_pow_right (by omega) (by omega)
        omega
      have hhi : (v % 128 + 128) &&& 128 = 128 := and128_hi _ (by omega) hb
      simp only [hm, hmask, hsm, hor, hhi]
      rw [Nat.mod_eq_of_lt hlt32]
      have hdiv : v / 128 < 2 ^ (32 - (shift + 7)) := by
        have hexp : 2 ^ (32 - shift) = 2 ^ (32 - (shift + 7)) * 128 := by
          rw [show (128 : Nat) = 2 ^ 7 from by norm_num, ← Nat.pow_add]
          congr 1
          omega
        rw [hexp] at hv
        omega
      have hrec := ih (v / 128) (Nat.div_lt_self (by omega) (by omega)) rest
        (val + (v % 128) * 2 ^ shift) (shift + 7) (by omega) hdiv hlt
      simp only [hrec, List.length_cons]
      have hsplit : (v % 128) * 2 ^ shift + v / 128 * 2 ^ (shift + 7)
          = v * 2 ^ shift := by
        rw [hps]
        have h1 : v / 128 * (128 * 2 ^ shift) = (v / 128 * 128) * 2 ^ shift := by ring
        rw [h1, ← Nat.add_mul]
        congr 1
        omega
      have hfin : val + (v % 128) * 2 ^ shift + v / 128 * 2 ^ (shift + 7)
          = val + v * 2 ^ shift := by omega
      rw [hfin]
      simp

theorem decodeVarint_enc (v : Nat) (rest : List Nat) (h : v < 2 ^ 32) :
    decodeVarint (encodeVarint v ++ rest) = (v, (encodeVarint v).length) := by
  have := decodeVarintAux_enc v rest 0 0 (by omega) (by simpa) (by simp)
  simpa [decodeVarint] using this
end Tens
namespace Tens
theorem utf8DecodeAux_char (c : Char) (rest : List Nat) (fuel : Nat) :
    utf8DecodeAux (fuel + 1) (utf8Char c ++ rest)
      = (utf8DecodeAux fuel rest).map (fun cs => c :: cs) := by
  have hv : c.toNat < 0xd800 ∨ (0xdfff < c.toNat ∧ c.toNat < 0x110000) := c.valid
  rw [utf8Char]
  by_cases h1 : c.toNat < 0x80
  · rw [if_pos h1, List.cons_append]
    simp only [utf8DecodeAux, h1, if_true, Char.ofNat_toNat, List.nil_append]
  · rw [if_neg h1]
    by_cases h2 : c.toNat < 0x800
    · rw [if_pos h2]
      have hb1a : ¬ (0xC0 + c.toNat / 64 < 0x80) := by omega
      have hb1b : ¬ (0xC0 + c.toNat / 64 < 0xC2) := by omega
      have hb1c : 0xC0 + c.toNat / 64 < 0xE0 := by omega
      have hc1 : 0x80 ≤ 0x80 + c.toNat % 64 := by omega
      have hc2 : 0x80 + c.toNat % 64 < 0xC0 := by omega
      have hn : (0xC0 + c.toNat / 64 - 0xC0) * 64 + (0x80 + c.toNat % 64 - 0x80)
          = c.toNat := by omega
      simp only [List.cons_append, List.nil_append, List.append_eq, utf8DecodeAux,
        hb1a, hb1b, hb1c, if_false, if_true]
      rw [if_pos ⟨hc1, hc2⟩, hn, Char.ofNat_toNat]
    · rw [if_neg h2]
      by_cases h3 : c.toNat < 0x10000
      · rw [if_pos h3]
        have hb1a : ¬ (0xE0 + c.toNat / 4096 < 0x80) := by omega
        have hb1b : ¬ (0xE0 + c.toNat / 4096 < 0xC2) := by omega
        have hb1c : ¬ (0xE0 + c.toNat / 4096 < 0xE0) := by omega
        have hb1d : 0xE0 + c.toNat / 4096 < 0xF0 := by omega
        have hn : (0xE0 + c.toNat / 4096 - 0xE0) * 4096
            + (0x80 + c.toNat / 64 % 64 - 0x80) * 64
            + (0x80 + c.toNat % 64 - 0x80) = c.toNat := by omega
        simp only [List.cons_append, List.nil_append, List.append_eq, utf8DecodeAux,
          hb1a, hb1b, hb1c, hb1d, if_false, if_true]
        rw [if_pos ?_]
        · rw [hn, Char.ofNat_toNat]
        · refine ⟨⟨by omega, by omega⟩, ⟨by omega, by omega⟩, ?_, ?_⟩
          · rw [hn]; omega
          · rw [hn]; omega
      · rw [if_neg h3]
        have hb1a : ¬ (0xF0 + c.toNat / 262144 < 0x80) := by omega
        have hb1b : ¬ (0xF0 + c.toNat / 262144 < 0xC2) := by omega
        have hb1c : ¬ (0xF0 + c.toNat / 262144 < 0xE0) := by omega
        have hb1d : ¬ (0xF0 + c.toNat / 262144 < 0xF0) := by omega
        have hb1e : 0xF0 + c.toNat / 262144 < 0xF5 := by omega
        have hn : (0xF0 + c.toNat / 262144 - 0xF0) * 262144
            + (0x80 + c.toNat / 4096 % 64 - 0x80) * 4096
            + (0x80 + c.toNat / 64 % 64 - 0x80) * 64
            + (0x80 + c.toNat % 64 - 0x80) = c.toNat := by omega
        simp only [List.cons_append, List.nil_append, List.append_eq, utf8DecodeAux,
          hb1a, hb1b, hb1c, hb1d, hb1e, if_false, if_true]
        rw [if_pos ?_]
        · rw [hn, Char.ofNat_toNat]
        · refine ⟨⟨by omega, by omega⟩, ⟨by omega, by omega⟩, ⟨by omega, by omega⟩, ?_, ?_⟩
          · rw [hn]; omega
          · rw [hn]; omega

theorem utf8DecodeAux_flatMap (cs : List Char) (fuel : Nat)
    (h : cs.length ≤ fuel) :
    utf8DecodeAux fuel (cs.flatMap utf8Char) = some cs := by
  induction cs generalizing fuel with
  | nil => cases fuel <;> simp [utf8DecodeAux]
  | cons c cs ih =>
    cases fuel with
    | zero => simp at h
    | succ fuel =>
      rw [List.flatMap_cons, utf8DecodeAux_char]
      rw [ih fuel (by simpa using h)]
      rfl

theorem utf8Char_length_pos (c : Char) : 1 ≤ (utf8Char c).length := by
  rw [utf8Char]
  split
  · simp
  · split
    · simp
    · split
      · simp
      · simp

theorem utf8Decode_utf8Bytes (s : String) : utf8Decode (utf8Bytes s) = some s.data := by
  rw [utf8Decode, utf8Bytes]
  apply utf8DecodeAux_flatMap
  induction s.data with
  | nil => simp
  | cons c cs ih =>
    rw [List.flatMap_cons]
    have h1 := utf8Char_length_pos c
    simp only [List.length_append, List.length_cons]
    omega
end Tens

/-! ### Dictionary section roundtrip -/
namespace Tens
theorem readDict_dictBytes (st : List String) (rest : List Nat)
    (hlen : ∀ s ∈ st, (utf8Bytes s).length < 2 ^ 32) :
    readDict st.length (dictBytes st ++ rest)
      = .ok (st, (dictBytes st).length) := by
  induction st generalizing rest with
  | nil => simp [readDict, dictBytes]
  | cons s ss ih =>
    have hdb : dictBytes (s :: ss)
        = (encodeVarint (utf8Bytes s).length ++ utf8Bytes s) ++ dictBytes ss := by
      simp [dictBytes]
    rw [List.length_cons, readDict]
    have hvl : (utf8Bytes s).length < 2 ^ 32 := hlen s (by simp)
    have hv : decodeVarint (dictBytes (s :: ss) ++ rest)
        = ((utf8Bytes s).length, (encodeVarint (utf8Bytes s).length).length) := by
      rw [hdb]
      rw [List.append_assoc, List.append_assoc]
      exact decodeVarint_enc _ _ hvl
    rw [hv]
    have hdrop : List.drop (encodeVarint (utf8Bytes s).length).length
        (dictBytes (s :: ss) ++ rest)
        = utf8Bytes s ++ (dictBytes ss ++ rest) := by
      rw [hdb, List.append_assoc, List.append_assoc]
      exact List.drop_left _ _
    simp only [hdrop]
    rw [if_pos (by simp)]
    have htake : List.take (utf8Bytes s).length (utf8Bytes s ++ (dictBytes ss ++ rest))
        = utf8Bytes s := List.take_left _ _
    rw [htake, utf8Decode_utf8Bytes]
    have hdrop2 : List.drop (utf8Bytes s).length (utf8Bytes s ++ (dictBytes ss ++ rest))
        = dictBytes ss ++ rest := List.drop_left _ _
    rw [hdrop2]
    rw [ih rest (fun x hx => hlen x (by simp [hx]))]
    have hs : String.mk s.data = s := rfl
    simp only [hs, hdb, List.length_append]

end Tens

/-! ### Canonical shape and size bounds -/
namespace Tens

mutual
/-- Shape invariant of canonical values: every object strictly key-sorted,
every float bit pattern a real 64-bit pattern. -/
def shapeOk : JVal → Prop
  | .float b => b < 2 ^ 64
  | .arr es => shapeOkList es
  | .obj fs => keyStrict fs ∧ shapeOkFields fs
  | _ => True
/-- shapeOk over array elements. -/
def shapeOkList : List JVal → Prop
  | [] => True
  | v :: vs => shapeOk v ∧ shapeOkList vs
/-- shapeOk over object field values. -/
def shapeOkFields : List (String × JVal) → Prop
  | [] => True
  | (_, v) :: fs => shapeOk v ∧ shapeOkFields fs
end

theorem shapeOkList_mem {es : List JVal} (h : shapeOkList es) :
    ∀ v ∈ es, shapeOk v := by
  induction es with
  | nil => simp
  | cons e t ih =>
    rw [shapeOkList] at h
    intro v hv
    rcases List.mem_cons.mp hv with rfl | h2
    · exact h.1
    · exact ih h.2 v h2

theorem shapeOkFields_mem {fs : List (String × JVal)} (h : shapeOkFields fs) :
    ∀ kv ∈ fs, shapeOk kv.2 := by
  induction fs with
  | nil => simp
  | cons kv t ih =>
    obtain ⟨k, v⟩ := kv
    rw [shapeOkFields] at h
    intro kv2 hkv
    rcases List.mem_cons.mp hkv with rfl | h2
    · exact h.1
    · exact ih h.2 kv2 h2

theorem shapeOkList_of_mem {es : List JVal} (h : ∀ v ∈ es, shapeOk v) :
    shapeOkList es := by
  induction es with
  | nil => rw [shapeOkList]; trivial
  | cons e t ih =>
    rw [shapeOkList]
    exact ⟨h e (by simp), ih (fun v hv => h v (by simp [hv]))⟩

theorem shapeOkFields_of_mem {fs : List (String × JVal)}
    (h : ∀ kv ∈ fs, shapeOk kv.2) : shapeOkFields fs := by
  induction fs with
  | nil => rw [shapeOkFields]; trivial
  | cons kv t ih =>
    obtain ⟨k, v⟩ := kv
    rw [shapeOkFields]
    exact ⟨h (k, v) (by simp), ih (fun kv2 hkv => h kv2 (by simp [hkv]))⟩

theorem bitsOkList_mem {es : List JVal} (h : bitsOkList es = true) :
    ∀ v ∈ es, bitsOk v = true := by
  induction es with
  | nil => simp
  | cons e t ih =>
    rw [bitsOkList, Bool.and_eq_true] at h
    intro v hv
    rcases List.mem_cons.mp hv with rfl | h2
    · exact h.1
    · exact ih h.2 v h2

theorem bitsOkFields_mem {fs : List (String × JVal)} (h : bitsOkFields fs = true) :
    ∀ kv ∈ fs, bitsOk kv.2 = true := by
  induction fs with
  | nil => simp
  | cons kv t ih =>
    obtain ⟨k, v⟩ := kv
    rw [bitsOkFields, Bool.and_eq_true] at h
    intro kv2 hkv
    rcases List.mem_cons.mp hkv with rfl | h2
    · exact h.1
    · exact ih h.2 kv2 h2

/-- Canonicalization of a well-formed value yields a shape-correct value. -/
theorem canonicalize_shapeOk : ∀ v, bitsOk v = true → shapeOk (canonicalize v) := by
  apply jvalInd
  · intro _; simp [canonicalize, shapeOk]
  · intro b _; simp [canonicalize, shapeOk]
  · intro i _; simp [canonicalize, shapeOk]
  · intro b hb
    rw [canonicalize]
    split
    · simp [shapeOk]
    · split
      · simp [shapeOk]
      · rw [shapeOk]
        rw [bitsOk] at hb
        simpa using hb
  · intro s _; simp [canonicalize, shapeOk]
  · intro l ih hb
    rw [canonicalize, shapeOk]
    rw [canonList_eq]
    apply shapeOkList_of_mem
    intro v hv
    rcases List.mem_map.mp hv with ⟨w, hw, rfl⟩
    exact ih w hw (bitsOkList_mem (by rw [bitsOk] at hb; exact hb) w hw)
  · intro fs ih hb
    rw [canonicalize, shapeOk]
    refine ⟨canonObj_strict fs, ?_⟩
    apply shapeOkFields_of_mem
    intro kv hkv
    rcases mem_foldInsert hkv with h2 | h2
    · have h3 : kv ∈ canonFields fs :=
        (List.Perm.mem_iff (List.perm_insertionSort _ _)).mp h2
      rw [canonFields_eq] at h3
      rcases List.mem_map.mp h3 with ⟨kw, hkw, rfl⟩
      exact ih kw hkw (bitsOkFields_mem (by rw [bitsOk] at hb; exact hb) kw hkw)
    · simp at h2
end Tens
namespace Tens
theorem jsize_pos (v : JVal) : 1 ≤ jsize v := by
  rcases v with _ | b | i | bb | s | es | fs <;> simp [jsize]

theorem jsizeList_mem {v : JVal} {es : List JVal} (h : v ∈ es) :
    jsize v ≤ jsizeList es := by
  induction es with
  | nil => simp at h
  | cons e t ih =>
    rcases List.mem_cons.mp h with rfl | h2
    · simp only [jsizeList, List.length_cons]; omega
    · have := ih h2
      simp only [jsizeList, List.length_cons]; omega

theorem jsizeFields_lookup {fs : List (String × JVal)} {k : String} {v : JVal}
    (h : assocLookup fs k = some v) : jsize v ≤ jsizeFields fs := by
  induction fs with
  | nil => simp [assocLookup] at h
  | cons kv t ih =>
    obtain ⟨k1, w⟩ := kv
    by_cases hk : k = k1
    · simp only [assocLookup, if_pos hk, Option.some.injEq] at h
      subst h
      simp only [jsizeFields, List.length_cons]; omega
    · simp only [assocLookup, if_neg hk] at h
      have := ih h
      simp only [jsizeFields, List.length_cons]; omega

theorem jsizeList_length (es : List JVal) : es.length ≤ jsizeList es := by
  induction es with
  | nil => simp [jsizeList]
  | cons e t ih =>
    have := jsize_pos e
    simp only [jsizeList, List.length_cons]; omega

theorem jsizeFields_length (fs : List (String × JVal)) :
    fs.length ≤ jsizeFields fs := by
  induction fs with
  | nil => simp [jsizeFields]
  | cons kv t ih =>
    obtain ⟨k, v⟩ := kv
    simp only [jsizeFields, List.length_cons]; omega

theorem keyLen_le_jsizeFields {fs : List (String × JVal)} {k : String}
    (h : k ∈ keysOf fs) : (utf8Bytes k).length ≤ jsizeFields fs := by
  induction fs with
  | nil => simp [keysOf] at h
  | cons kv t ih =>
    obtain ⟨k1, v⟩ := kv
    by_cases hk : k = k1
    · subst hk
      simp only [jsizeFields]
      omega
    · have h2 : k ∈ keysOf t := by
        simp only [keysOf, List.map_cons, List.mem_cons] at h
        rcases h with h | h
        · exact absurd h hk
        · exact h
      have := ih h2
      simp only [jsizeFields]
      omega

theorem dfsList_eq (es : List JVal) : dfsList es = es.flatMap dfsStrings := by
  induction es with
  | nil => simp [dfsList]
  | cons e t ih => simp [dfsList, ih]

theorem dfsVals_cons_notmem {fs : List (String × JVal)} {k0 : String} {v0 : JVal}
    {ks : List String} (h : ∀ k ∈ ks, k ≠ k0) :
    dfsVals ((k0, v0) :: fs) ks = dfsVals fs ks := by
  induction ks with
  | nil => simp [dfsVals]
  | cons k t ih =>
    have hk : k ≠ k0 := h k (by simp)
    rw [dfsVals, dfsVals]
    rw [ih (fun x hx => h x (by simp [hx]))]
    have : assocLookup ((k0, v0) :: fs) k = assocLookup fs k := by
      simp [assocLookup, hk]
    congr 1
    rw [this]

theorem keyStrict_keys_nodup {fs : List (String × JVal)} (h : keyStrict fs) :
    (keysOf fs).Nodup := by
  rw [keysOf, List.nodup_iff_sublist]
  intro a hs
  have hp : List.Pairwise (fun x y => x.1 ≠ y.1)
      fs := h.imp (fun hab => hab.2)
  have := (List.pairwise_map.mpr ?_ : List.Pairwise (fun x y : String => x ≠ y) (fs.map Prod.fst))
  · exact absurd (this.sublist hs) (by simp)
  · exact hp
end Tens
namespace Tens
theorem keyStrict_sorted {fs : List (String × JVal)} (h : keyStrict fs) :
    List.Pairwise (fun a b : String => strLeB a b = true) (keysOf fs) := by
  rw [keysOf, List.pairwise_map]
  exact h.imp (fun hab => hab.1)

theorem sortStrings_sorted {ks : List String}
    (h : List.Pairwise (fun a b : String => strLeB a b = true) ks) :
    sortStrings ks = ks :=
  List.Sorted.insertionSort_eq h

theorem dfsVals_keys {fs : List (String × JVal)} (h : (keysOf fs).Nodup) :
    dfsVals fs (keysOf fs) = fs.flatMap (fun kv => dfsStrings kv.2) := by
  induction fs with
  | nil => simp [keysOf, dfsVals]
  | cons kv t ih =>
    obtain ⟨k, v⟩ := kv
    simp only [keysOf, List.map_cons] at h ⊢
    rw [List.nodup_cons] at h
    rw [dfsVals]
    have hlook : assocLookup ((k, v) :: t) k = some v := by
      simp [assocLookup]
    rw [List.flatMap_cons]
    have hrest : dfsVals ((k, v) :: t) (t.map Prod.fst)
        = dfsVals t (t.map Prod.fst) := by
      apply dfsVals_cons_notmem
      intro x hx he
      exact h.1 (he ▸ hx)
    congr 1
    · split
      · rename_i v2 heq
        rw [hlook] at heq
        injection heq with hv
        rw [hv]
      · rename_i heq
        rw [hlook] at heq
        exact absurd heq (by simp)
    · rw [hrest]
      exact ih h.2

theorem dfs_structure_obj {fs : List (String × JVal)} (h : keyStrict fs) :
    dfsStrings (JVal.obj fs)
      = keysOf fs ++ fs.flatMap (fun kv => dfsStrings kv.2) := by
  rw [dfsStrings]
  rw [sortStrings_sorted (keyStrict_sorted h)]
  rw [dfsVals_keys (keyStrict_keys_nodup h)]

theorem jsizeFields_mem {kv : String × JVal} {fs : List (String × JVal)}
    (h : kv ∈ fs) : jsize kv.2 ≤ jsizeFields fs := by
  induction fs with
  | nil => simp at h
  | cons kw t ih =>
    obtain ⟨k1, w1⟩ := kw
    rcases List.mem_cons.mp h with rfl | h2
    · simp only [jsizeFields]; omega
    · have := ih h2
      simp only [jsizeFields]; omega

theorem flatMap_dfs_length_le {l : List JVal}
    (h : ∀ v ∈ l, (dfsStrings v).length ≤ jsize v) :
    (l.flatMap dfsStrings).length ≤ jsizeList l := by
  induction l with
  | nil => simp [jsizeList]
  | cons e t ih =>
    rw [List.flatMap_cons, List.length_append]
    have h1 := h e (by simp)
    have h2 := ih (fun v hv => h v (by simp [hv]))
    simp only [jsizeList]
    omega

theorem flatMap_dfs_fields_length_le {fs : List (String × JVal)}
    (h : ∀ kv ∈ fs, (dfsStrings kv.2).length ≤ jsize kv.2) :
    fs.length + (fs.flatMap (fun kv => dfsStrings kv.2)).length ≤ jsizeFields fs := by
  induction fs with
  | nil => simp [jsizeFields]
  | cons kv t ih =>
    obtain ⟨k, v⟩ := kv
    rw [List.flatMap_cons, List.length_append]
    have h1 := h (k, v) (by simp)
    have h2 := ih (fun kv2 hkv => h kv2 (by simp [hkv]))
    simp only [jsizeFields, List.length_cons]
    simp only at h1
    omega

theorem dfs_bounds : ∀ v, shapeOk v →
    (dfsStrings v).length ≤ jsize v ∧
    (∀ s ∈ dfsStrings v, (utf8Bytes s).length ≤ jsize v) := by
  apply jvalInd
  · intro _; simp [dfsStrings, jsize]
  · intro b _; simp [dfsStrings, jsize]
  · intro i _; simp [dfsStrings, jsize]
  · intro b _; simp [dfsStrings, jsize]
  · intro s _
    constructor
    · simp [dfsStrings, jsize]
    · intro x hx
      rw [dfsStrings] at hx
      rcases List.mem_singleton.mp hx with rfl
      simp [jsize]
  · intro l ih hs
    rw [shapeOk] at hs
    have hm := shapeOkList_mem hs
    rw [dfsStrings, dfsList_eq, jsize]
    constructor
    · have := flatMap_dfs_length_le (fun v hv => (ih v hv (hm v hv)).1)
      omega
    · intro s hsx
      rcases List.mem_flatMap.mp hsx with ⟨w, hw, hsw⟩
      have h1 := (ih w hw (hm w hw)).2 s hsw
      have h2 := jsizeList_mem hw
      omega
  · intro fs ih hs
    rw [shapeOk] at hs
    have hm := shapeOkFields_mem hs.2
    rw [dfs_structure_obj hs.1, jsize]
    constructor
    · rw [List.length_append]
      have h1 : (keysOf fs).length = fs.length := by simp [keysOf]
      have h2 := flatMap_dfs_fields_length_le
        (fun kv hkv => (ih kv hkv (hm kv hkv)).1)
      omega
    · intro s hsx
      rcases List.mem_append.mp hsx with h2 | h2
      · have := keyLen_le_jsizeFields h2
        omega
      · rcases List.mem_flatMap.mp h2 with ⟨kv, hkv, hskv⟩
        have ha := (ih kv hkv (hm kv hkv)).2 s hskv
        have hb := jsizeFields_mem hkv
        omega
end Tens

/-! ### The roundtrip contract (C1) -/
namespace Tens
theorem dyToF64Bits_lt (neg : Bool) (n d : Nat) :
    dyToF64Bits neg n d < 2 ^ 64 := by
  simp only [dyToF64Bits]
  split_ifs <;> omega

theorem intToF64Bits_lt (i : Int) : intToF64Bits i < 2 ^ 64 :=
  dyToF64Bits_lt _ _ _

theorem i8Val_roundtrip (i : Int) (h1 : -128 ≤ i) (h2 : i ≤ 127) :
    i8Val (i % 256).toNat = i := by
  rw [i8Val]
  split <;> omega

theorem take_leBytes (w n : Nat) (rest : List Nat) :
    List.take w (leBytes w n ++ rest) = leBytes w n := by
  nth_rewrite 1 [show w = (leBytes w n).length from (leBytes_length w n).symm]
  rw [List.take_left]

theorem drop_leBytes (w n : Nat) (rest : List Nat) :
    List.drop w (leBytes w n ++ rest) = rest := by
  nth_rewrite 1 [show w = (leBytes w n).length from (leBytes_length w n).symm]
  rw [List.drop_left]

theorem i32Val_roundtrip (i : Int) (h1 : -(2 ^ 31) ≤ i) (h2 : i ≤ 2 ^ 31 - 1)
    (rest : List Nat) :
    i32Val (List.take 4 (leBytes 4 (i % 2 ^ 32).toNat ++ rest)) = i := by
  rw [take_leBytes]
  rw [i32Val]
  rw [leNat_leBytes 4 _ (by omega)]
  split <;> omega

theorem leNat_take8 (b : Nat) (h : b < 2 ^ 64) (rest : List Nat) :
    leNat (List.take 8 (leBytes 8 b ++ rest)) = b := by
  rw [take_leBytes]
  exact leNat_leBytes 8 b (by omega)
end Tens
namespace Tens
theorem f64AbsLt_trunc {b c : Nat} (h : f64AbsLt b c = true) :
    (f64TruncInt b).natAbs < c := by
  simp only [f64AbsLt] at h
  simp only [f64TruncInt]
  split at h
  · simp at h
  · split at h <;> rename_i he
    · simp only [decide_eq_true_eq] at h
      rw [if_pos he]
      split
      · rw [Int.natAbs_neg, Int.natAbs_ofNat]; exact h
      · rw [Int.natAbs_ofNat]; exact h
    · simp only [decide_eq_true_eq] at h
      rw [if_neg he]
      have hd : (f64Dyadic b).1 / 2 ^ (1075 - (f64Dyadic b).2) < c :=
        (Nat.div_lt_iff_lt_mul (Nat.pos_pow_of_pos _ (by omega))).mpr h
      split
      · rw [Int.natAbs_neg, Int.natAbs_ofNat]; exact hd
      · rw [Int.natAbs_ofNat]; exact hd

theorem stAdd_mem_eq {st : List String} {s : String} (h : s ∈ st) :
    stAdd st s = (st.indexOf s, st) := by
  simp [stAdd, h]

theorem decOut_cons_notmem {fs : List (String × JVal)} {k0 : String} {v0 : JVal}
    {ks : List String} (h : ∀ k ∈ ks, k ≠ k0) :
    ks.map (fun k => (k, numReclass ((assocLookup ((k0, v0) :: fs) k).getD .null)))
      = ks.map (fun k => (k, numReclass ((assocLookup fs k).getD .null))) := by
  apply List.map_congr_left
  intro k hk
  have : assocLookup ((k0, v0) :: fs) k = assocLookup fs k := by
    simp [assocLookup, h k hk]
  rw [this]

theorem decOut_keys {fs : List (String × JVal)} (h : (keysOf fs).Nodup) :
    (keysOf fs).map (fun k => (k, numReclass ((assocLookup fs k).getD .null)))
      = numReclassFields fs := by
  induction fs with
  | nil => simp [keysOf, numReclassFields]
  | cons kv t ih =>
    obtain ⟨k, v⟩ := kv
    rw [keysOf, List.map_cons, List.nodup_cons] at h
    obtain ⟨h1, h2⟩ := h
    rw [show keysOf ((k, v) :: t) = k :: keysOf t from rfl]
    rw [List.map_cons, numReclassFields]
    congr 1
    · simp [assocLookup]
    · rw [decOut_cons_notmem ?_]
      · exact ih h2
      · intro x hx he
        rw [keysOf] at hx
        rw [he] at hx
        exact h1 hx
end Tens
namespace Tens
theorem assocLookup_some_mem {fs : List (String × JVal)} {k : String} {v : JVal}
    (h : assocLookup fs k = some v) : (k, v) ∈ fs := by
  induction fs with
  | nil => simp [assocLookup] at h
  | cons kv t ih =>
    obtain ⟨k1, w⟩ := kv
    by_cases hk : k = k1
    · simp only [assocLookup, if_pos hk, Option.some.injEq] at h
      subst hk
      rw [← h]
      simp
    · simp only [assocLookup, if_neg hk] at h
      exact List.mem_cons_of_mem _ (ih h)

theorem keysOf_mem_lookup {fs : List (String × JVal)} {k : String}
    (h : k ∈ keysOf fs) : ∃ v, assocLookup fs k = some v := by
  induction fs with
  | nil => simp [keysOf] at h
  | cons kv t ih =>
    obtain ⟨k1, w⟩ := kv
    by_cases hk : k = k1
    · exact ⟨w, by simp [assocLookup, hk]⟩
    · have h2 : k ∈ keysOf t := by
        rw [keysOf, List.map_cons, List.mem_cons] at h
        rcases h with h | h
        · exact absurd h hk
        · exact h
      rcases ih h2 with ⟨v, hv⟩
      exact ⟨v, by simp [assocLookup, hk, hv]⟩

theorem dfsVals_cons_some {fs : List (String × JVal)} {k : String} {v : JVal}
    {ks : List String} (h : assocLookup fs k = some v) :
    dfsVals fs (k :: ks) = dfsStrings v ++ dfsVals fs ks := by
  rw [dfsVals]
  congr 1
  split
  · rename_i v2 heq
    rw [h] at heq
    injection heq with hv
    rw [hv]
  · rename_i heq
    rw [h] at heq
    exact absurd heq (by simp)
end Tens
namespace Tens
set_option maxHeartbeats 2000000 in
theorem decode_encode_value (st : List String) (c : JVal)
    (hs : shapeOk c) (hsub : ∀ x ∈ dfsStrings c, x ∈ st)
    (hst : st.length < 2 ^ 32) (hj : jsize c < 2 ^ 32) :
    ∀ rest, decodeValue st ((encodeValue st c).2 ++ rest)
      = .ok (numReclass c, (encodeValue st c).2.length) := by
  refine encodeValue.induct
    (fun st c => shapeOk c → (∀ x ∈ dfsStrings c, x ∈ st) → st.length < 2 ^ 32 →
      jsize c < 2 ^ 32 →
      ∀ rest, decodeValue st ((encodeValue st c).2 ++ rest)
        = .ok (numReclass c, (encodeValue st c).2.length))
    (fun st fs ks => keyStrict fs → shapeOkFields fs →
      (∀ k ∈ ks, ∃ v, assocLookup fs k = some v) →
      (∀ k ∈ ks, k ∈ st) → (∀ x ∈ dfsVals fs ks, x ∈ st) →
      st.length < 2 ^ 32 → jsizeFields fs < 2 ^ 32 →
      ∀ rest m, (∀ a ∈ m, ∀ k ∈ ks, a.1 ≠ k) → ks.Nodup →
      decodeFieldsD st ks.length ((encodeFields st fs ks).2 ++ rest) m
        = .ok (m ++ ks.map (fun k => (k, numReclass ((assocLookup fs k).getD .null))),
            (encodeFields st fs ks).2.length))
    (fun st es => shapeOkList es → (∀ x ∈ dfsList es, x ∈ st) →
      st.length < 2 ^ 32 → jsizeList es < 2 ^ 32 →
      ∀ rest, decodeElems st es.length ((encodeList st es).2 ++ rest)
        = .ok (numReclassList es, (encodeList st es).2.length))
    ?_ ?_ ?_ ?_ ?_ ?_ ?_ ?_ ?_ ?_ ?_ ?_ ?_ ?_ ?_ ?_ st c hs hsub hst hj
  -- null
  · intro st _ _ _ _ rest
    have he : (encodeValue st JVal.null).2 = [0] := by simp [encodeValue]
    rw [he]
    simp [decodeValue, numReclass]
  -- bool
  · intro st b _ _ _ _ rest
    have he : (encodeValue st (JVal.bool b)).2 = [if b then 1 else 2] := by
      simp [encodeValue]
    rw [he]
    rcases b with _ | _
    · simp [decodeValue, numReclass]
    · simp [decodeValue, numReclass]
  -- int i8
  · intro st i h _ _ _ _ rest
    have he : (encodeValue st (JVal.int i)).2 = [3, (i % 256).toNat] := by
      simp [encodeValue, h]
    rw [he]
    simp only [List.cons_append, List.nil_append, decodeValue]
    rw [i8Val_roundtrip i h.1 h.2]
    rw [numReclass, if_pos h]
    simp
  -- int i32
  · intro st i h1 h2 _ _ _ _ rest
    have he : (encodeValue st (JVal.int i)).2 = 5 :: leBytes 4 (i % 2 ^ 32).toNat := by
      simp only [encodeValue, if_neg h1]
      rw [if_pos h2]
    rw [he]
    simp only [List.cons_append, decodeValue]
    rw [if_pos (by
      rw [List.length_append, leBytes_length]
      omega)]
    rw [i32Val_roundtrip i h2.1 h2.2 rest]
    rw [numReclass, if_neg h1, if_pos h2]
    simp [leBytes_length]
  -- int big
  · intro st i h1 h2 _ _ _ _ rest
    have he : (encodeValue st (JVal.int i)).2 = 6 :: leBytes 8 (intToF64Bits i) := by
      simp only [encodeValue, if_neg h1]
      rw [if_neg h2]
    rw [he]
    simp only [List.cons_append, decodeValue]
    rw [if_pos (by
      rw [List.length_append, leBytes_length]
      omega)]
    rw [leNat_take8 _ (intToF64Bits_lt i) rest]
    rw [numReclass, if_neg h1, if_neg h2]
    simp [leBytes_length]
  -- float reclass i8
  · intro st b h i hi _ _ _ _ rest
    have he : (encodeValue st (JVal.float b)).2 = [3, (f64TruncInt b % 256).toNat] := by
      simp only [encodeValue, h, if_true]
      rw [if_pos hi]
    rw [he]
    simp only [List.cons_append, List.nil_append, decodeValue]
    rw [i8Val_roundtrip _ hi.1 hi.2]
    rw [numReclass, if_pos h]
    simp
  -- float reclass i32
  · intro st b h i hi _ _ _ _ rest
    have habs : (f64TruncInt b).natAbs < 2147483647 :=
      f64AbsLt_trunc (Bool.and_elim_right h)
    have he : (encodeValue st (JVal.float b)).2
        = 5 :: leBytes 4 (f64TruncInt b % 2 ^ 32).toNat := by
      simp only [encodeValue, h, if_true]
      rw [if_neg hi]
    rw [he]
    simp only [List.cons_append, decodeValue]
    rw [if_pos (by
      rw [List.length_append, leBytes_length]
      omega)]
    rw [i32Val_roundtrip _ (by omega) (by omega) rest]
    rw [numReclass, if_pos h]
    simp [leBytes_length]
  -- float stays float
  · intro st b h hsx _ _ _ rest
    have hb : b < 2 ^ 64 := by
      rw [shapeOk] at hsx
      exact hsx
    have he : (encodeValue st (JVal.float b)).2 = 6 :: leBytes 8 b := by
      simp only [encodeValue]
      rw [if_neg (by simpa using h)]
    rw [he]
    simp only [List.cons_append, decodeValue]
    rw [if_pos (by
      rw [List.length_append, leBytes_length]
      omega)]
    rw [leNat_take8 _ hb rest]
    rw [numReclass, if_neg (by simpa using h)]
    simp [leBytes_length]
  -- str
  · intro st s _ hsub hst _ rest
    have hmem : s ∈ st := hsub s (by rw [dfsStrings]; simp)
    have hidx : st.indexOf s < st.length := List.indexOf_lt_length.mpr hmem
    have he : (encodeValue st (JVal.str s)).2 = 7 :: encodeVarint (st.indexOf s) := by
      simp [encodeValue, stAdd_mem_eq hmem]
    rw [he]
    simp only [List.cons_append, decodeValue]
    rw [decodeVarint_enc _ _ (by omega)]
    rw [dif_pos hidx]
    have hget : st.get ⟨st.indexOf s, hidx⟩ = s := List.getElem_indexOf hidx
    rw [hget]
    rw [numReclass]
    simp only [List.length_cons]
    rw [Nat.add_comm]
  -- arr
  · intro st es ih hsx hsub hst hj rest
    have hsl : shapeOkList es := by rw [shapeOk] at hsx; exact hsx
    have hsubl : ∀ x ∈ dfsList es, x ∈ st := by
      intro x hx
      exact hsub x (by rw [dfsStrings]; exact hx)
    have hjl : jsizeList es < 2 ^ 32 := by rw [jsize] at hj; omega
    have hlen : es.length < 2 ^ 32 := by
      have := jsizeList_length es
      omega
    have he : (encodeValue st (JVal.arr es)).2
        = 8 :: (encodeVarint es.length ++ (encodeList st es).2) := by
      simp [encodeValue]
    rw [he]
    simp only [List.cons_append, decodeValue]
    rw [List.append_assoc]
    rw [decodeVarint_enc _ _ hlen]
    rw [List.drop_left]
    rw [ih hsl hsubl hst hjl rest]
    rw [numReclass]
    simp only [List.length_cons, List.length_append, Except.ok.injEq, Prod.mk.injEq]
    exact ⟨trivial, by omega⟩
  -- obj
  · intro st fs ks ih hsx hsub hst hj rest
    have hstrict : keyStrict fs := by rw [shapeOk] at hsx; exact hsx.1
    have hsf : shapeOkFields fs := by rw [shapeOk] at hsx; exact hsx.2
    have hsrt : sortStrings (keysOf fs) = keysOf fs :=
      sortStrings_sorted (keyStrict_sorted hstrict)
    have hks : ks = keysOf fs := hsrt
    have hjf : jsizeFields fs < 2 ^ 32 := by rw [jsize] at hj; omega
    have hkslen : ks.length < 2 ^ 32 := by
      rw [hks, keysOf, List.length_map]
      have := jsizeFields_length fs
      omega
    have hdfs : dfsStrings (JVal.obj fs) = ks ++ dfsVals fs ks := by
      rw [dfsStrings, hsrt, hks]
    have hsubk : ∀ k ∈ ks, k ∈ st := by
      intro k hk
      exact hsub k (by rw [hdfs]; exact List.mem_append_left _ hk)
    have hsubv : ∀ x ∈ dfsVals fs ks, x ∈ st := by
      intro x hx
      exact hsub x (by rw [hdfs]; exact List.mem_append_right _ hx)
    have hlook : ∀ k ∈ ks, ∃ v, assocLookup fs k = some v := by
      intro k hk
      exact keysOf_mem_lookup (hks ▸ hk)
    have hnd : ks.Nodup := by
      rw [hks]
      exact keyStrict_keys_nodup hstrict
    have he : (encodeValue st (JVal.obj fs)).2
        = 9 :: (encodeVarint ks.length ++ (encodeFields st fs ks).2) := by
      simp [encodeValue, hks, hsrt]
    rw [he]
    simp only [List.cons_append, decodeValue]
    rw [List.append_assoc]
    rw [decodeVarint_enc _ _ hkslen]
    rw [List.drop_left]
    rw [ih hstrict hsf hlook hsubk hsubv hst hjf rest [] (by simp) hnd]
    rw [List.nil_append]
    rw [show ks.map (fun k => (k, numReclass ((assocLookup fs k).getD .null)))
        = numReclassFields fs from by
      rw [hks]
      exact decOut_keys (keyStrict_keys_nodup hstrict)]
    rw [numReclass]
    simp only [List.length_cons, List.length_append, Except.ok.injEq, Prod.mk.injEq]
    exact ⟨trivial, by omega⟩
  -- fields nil
  · intro st fs _ _ _ _ _ _ _ rest m _ _
    have he : (encodeFields st fs []).2 = [] := by simp [encodeFields]
    rw [he]
    simp [decodeFieldsD]
  -- fields cons, lookup some
  · intro st fs k ks ra v h rv ih1 ih2 ih3 hstrict hsf hlook hsubk hsubv hst hjf rest m hdisj hnd
    have hkmem : k ∈ st := hsubk k (by simp)
    have hra2 : (stAdd st k).2 = st := by rw [stAdd_mem_eq hkmem]
    have hra1 : (stAdd st k).1 = st.indexOf k := by rw [stAdd_mem_eq hkmem]
    have hvmem : (k, v) ∈ fs := assocLookup_some_mem h
    have hsv : shapeOk v := shapeOkFields_mem hsf (k, v) hvmem
    have hdfsv : ∀ x ∈ dfsStrings v, x ∈ st := by
      intro x hx
      exact hsubv x (by
        rw [dfsVals_cons_some h]
        exact List.mem_append_left _ hx)
    have hjv : jsize v < 2 ^ 32 := by
      have := jsizeFields_lookup h
      omega
    have hvenc1 : (encodeValue st v).1 = st := emit_no_alloc st v hdfsv
    have ihv := ih2
    rw [hra2] at ihv
    have hdecv := ihv hsv hdfsv hst hjv
    have ih3x := ih3
    have hrv : rv = encodeValue (stAdd st k).2 v := rfl
    rw [hrv] at ih3x
    rw [hra2, hvenc1] at ih3x
    have hidx : st.indexOf k < st.length := List.indexOf_lt_length.mpr hkmem
    have he : (encodeFields st fs (k :: ks)).2
        = (encodeVarint (st.indexOf k) ++ (encodeValue st v).2)
          ++ (encodeFields st fs ks).2 := by
      simp only [encodeFields, h]
      rw [hra1, hra2]
      split
      · rename_i v2 heq
        rw [h] at heq
        injection heq with hv2
        subst hv2
        rw [hvenc1]
      · rename_i heq
        rw [h] at heq
        exact absurd heq (by simp)
    rw [he]
    rw [show ((encodeVarint (st.indexOf k) ++ (encodeValue st v).2)
          ++ (encodeFields st fs ks).2) ++ rest
        = encodeVarint (st.indexOf k)
          ++ ((encodeValue st v).2 ++ ((encodeFields st fs ks).2 ++ rest)) from by
      simp [List.append_assoc]]
    rw [List.length_cons, decodeFieldsD]
    rw [decodeVarint_enc _ _ (by omega)]
    rw [dif_pos hidx]
    rw [List.drop_left]
    have hget : st.get ⟨st.indexOf k, hidx⟩ = k := List.getElem_indexOf hidx
    have hmi : mapInsert k (numReclass v) m = m ++ [(k, numReclass v)] :=
      mapInsert_notMem (fun a ha => hdisj a ha k (by simp))
    have hdisj2 : ∀ a ∈ m ++ [(k, numReclass v)], ∀ k2 ∈ ks, a.1 ≠ k2 := by
      intro a ha k2 hk2
      rcases List.mem_append.mp ha with h2 | h2
      · exact hdisj a h2 k2 (by simp [hk2])
      · have ha2 : a = (k, numReclass v) := by simpa using h2
        rw [ha2]
        intro heq
        rw [List.nodup_cons] at hnd
        have hkk : k = k2 := heq
        rw [hkk] at hnd
        exact hnd.1 hk2
    have hdd := ih3x hstrict hsf (fun k2 hk2 => hlook k2 (by simp [hk2]))
      (fun k2 hk2 => hsubk k2 (by simp [hk2]))
      (fun x hx => hsubv x (by
        rw [dfsVals_cons_some h]
        exact List.mem_append_right _ hx))
      hst hjf rest (m ++ [(k, numReclass v)])
      hdisj2 (by rw [List.nodup_cons] at hnd; exact hnd.2)
    have hdrop2 : List.drop
        ((encodeVarint (st.indexOf k)).length + (encodeValue st v).2.length)
        (encodeVarint (st.indexOf k)
          ++ ((encodeValue st v).2 ++ ((encodeFields st fs ks).2 ++ rest)))
        = (encodeFields st fs ks).2 ++ rest := by
      first
        | (rw [← List.drop_drop, List.drop_left, List.drop_left])
        | (rw [Nat.add_comm, ← List.drop_drop, List.drop_left, List.drop_left])
    simp only [hdecv (((encodeFields st fs ks).2) ++ rest), hget, hmi, hdrop2, hdd]
    rw [List.map_cons]
    rw [show (assocLookup fs k).getD JVal.null = v from by rw [h]; rfl]
    simp only [List.length_append, List.append_assoc, List.singleton_append,
      List.cons_append, List.nil_append, Except.ok.injEq, Prod.mk.injEq]
    exact ⟨trivial, by omega⟩
  -- fields cons, lookup none
  · intro st fs k ks ra h ih hstrict hsf hlook hsubk hsubv hst hjf rest m hdisj hnd
    rcases hlook k (by simp) with ⟨v, hv⟩
    rw [hv] at h
    exact absurd h (by simp)
  -- elems nil
  · intro st _ _ _ _ rest
    have he : (encodeList st []).2 = [] := by simp [encodeList]
    rw [he]
    simp [decodeElems, numReclassList]
  -- elems cons
  · intro st v vs rv ih1 ih3 hsx hsub hst hj rest
    have hsv : shapeOk v := (shapeOkList_mem hsx v (by simp))
    have hsubv : ∀ x ∈ dfsStrings v, x ∈ st := by
      intro x hx
      exact hsub x (by rw [dfsList]; exact List.mem_append_left _ hx)
    have hjv : jsize v < 2 ^ 32 := by
      have h1 : jsizeList (v :: vs) = jsize v + jsizeList vs := by rw [jsizeList]
      omega
    have hvenc1 : (encodeValue st v).1 = st := emit_no_alloc st v hsubv
    have hdecv := ih1 hsv hsubv hst hjv
    have ih3x := ih3
    rw [hvenc1] at ih3x
    have he : (encodeList st (v :: vs)).2
        = (encodeValue st v).2 ++ (encodeList st vs).2 := by
      simp only [encodeList]
      rw [hvenc1]
    rw [he]
    rw [List.length_cons, decodeElems]
    rw [List.append_assoc]
    have hdd := ih3x (by rw [shapeOkList] at hsx; exact hsx.2)
      (fun x hx => hsub x (by rw [dfsList]; exact List.mem_append_right _ hx))
      hst (by rw [jsizeList] at hj; omega) rest
    simp only [hdecv ((encodeList st vs).2 ++ rest), List.drop_left, hdd]
    rw [numReclassList]
    simp only [List.length_append]
end Tens
namespace Tens
theorem addKeys_length (st l : List String) :
    (addKeys st l).length ≤ st.length + l.length := by
  induction l generalizing st with
  | nil => simp [addKeys]
  | cons k ks ih =>
    rw [addKeys]
    have h1 : (stAdd st k).2.length ≤ st.length + 1 := by
      rw [stAdd]
      split
      · simp
      · simp
    have h2 := ih (stAdd st k).2
    simp only [List.length_cons]
    omega

/-- C1: the roundtrip contract.  For every value whose float payloads are
genuine 64-bit patterns (bitsOk, true of anything serde_json produces) and
whose canonical form fits the u32 counts the format writes (jsize below
2^32), decoding the binary encoding yields exactly the canonicalized value
transformed by the section 4.3 numeric re-classification (numReclass): an
integer outside the signed 32-bit range comes back as its f64 cast, a
float with zero fract and magnitude below i32::MAX comes back as an
integer, and every other part of the value survives unchanged. -/
theorem c1_roundtrip (v : JVal) (hb : bitsOk v = true)
    (hj : jsize (canonicalize v) < 2 ^ 32) :
    decodeTop (encodeTop v) = .ok (numReclass (canonicalize v)) := by
  have hs : shapeOk (canonicalize v) := canonicalize_shapeOk v hb
  set c := canonicalize v with hc
  set st := scanStrings [] c with hstdef
  have hmem : ∀ x, x ∈ st ↔ x ∈ dfsStrings c := by
    intro x
    rw [hstdef, scan_eq_addKeys_dfs, mem_addKeys]
    simp
  have hsub : ∀ x ∈ dfsStrings c, x ∈ st := fun x hx => (hmem x).mpr hx
  have hbound := dfs_bounds c hs
  have hstlen : st.length < 2 ^ 32 := by
    have h1 : st.length ≤ (dfsStrings c).length := by
      rw [hstdef, scan_eq_addKeys_dfs]
      have := addKeys_length [] (dfsStrings c)
      simpa using this
    omega
  have hlenS : ∀ s ∈ st, (utf8Bytes s).length < 2 ^ 32 := by
    intro s hsm
    have := hbound.2 s ((hmem s).mp hsm)
    omega
  have hdec := decode_encode_value st c hs hsub hstlen hj []
  rw [List.append_nil] at hdec
  have henc : encodeTop v = tensHeader ++ encodeVarint st.length
      ++ dictBytes st ++ (encodeValue st c).2 := by
    rw [encodeTop, encodeWith]
  rw [henc]
  rw [show tensHeader ++ encodeVarint st.length ++ dictBytes st ++ (encodeValue st c).2
      = 0x54 :: 0x45 :: 0x4E :: 0x53 :: 0x02 ::
        (encodeVarint st.length ++ (dictBytes st ++ (encodeValue st c).2)) from by
    simp [tensHeader, List.append_assoc]]
  rw [decodeTop]
  rw [if_neg (by simp)]
  rw [if_neg (by simp [List.take])]
  rw [if_neg (by simp)]
  simp only [List.drop_succ_cons, List.drop_zero]
  simp only [decodeVarint_enc _ _ hstlen, List.drop_left,
    readDict_dictBytes st _ hlenS, hdec]
end Tens

namespace Tens

/-- Witness for c1_roundtrip at the integer 5: both hypotheses hold by
evaluation and the roundtrip gives back the canonical value. -/
theorem c1_roundtrip_witness :
    decodeTop (encodeTop (JVal.int 5)) = .ok (numReclass (canonicalize (JVal.int 5))) :=
  c1_roundtrip (JVal.int 5) (by simp [bitsOk]) (by norm_num [canonicalize, jsize])

end Tens
